import Mathlib

/-!
Verification development for `occams_forms/renderers.py`.

The Python module renders datastore schemata as WTForms forms and binds
entity data back onto entities.  This file gives a shallow embedding of
the data model and the operations of that module (field synthesis,
HTML-attribute rendering, form assembly helpers, the workflow transition
table, entity serialization and application), together with theorems
settling the specification claims.

Conventions of the embedding:
* Python dictionaries are association lists with dict semantics
  (assignment replaces in place, insertion order preserved).
* Machine-level details with no bearing on the verified properties are
  elided and noted where they occur (actual file writes, `fsync`,
  `os.rename`, `os.unlink`, the floating-point step computation for
  decimal widgets).  Nondeterministic inputs (uuid4-generated paths,
  libmagic MIME sniffing) are supplied by an explicit environment.
* Fallible operations (dictionary indexing, SQLAlchemy `.one()`) return
  `Except PyError`.
* The code targets Python 2 (it uses `cgi.FieldStorage`, `six`,
  `u''`-literals); where Python 2 and 3 differ (comparisons against
  `None`, `in` on byte strings) the Python 2 semantics is modelled.
-/

/-- Association-list lookup with Python-dict key equality. -/
def lookupA {α : Type} : List (String × α) → String → Option α
  | [], _ => Option.none
  | (k, v) :: t, n => if k = n then some v else lookupA t n

/-- Association-list store with Python-dict assignment semantics:
an existing key keeps its position and gets the new value, a new key is
appended. -/
def setA {α : Type} : List (String × α) → String → α → List (String × α)
  | [], n, v => [(n, v)]
  | (k, w) :: t, n, v => if k = n then (k, v) :: t else (k, w) :: setA t n v

/-! ## Workflow states and the transition table (`states`, `TRANSITIONS`) -/

def PENDING_ENTRY : String := "pending-entry"
def PENDING_REVIEW : String := "pending-review"
def PENDING_CORRECTION : String := "pending-correction"
def COMPLETE : String := "complete"

/-- The static transition table of `renderers.TRANSITIONS`, as the
ordered key/value pairs of the Python dict. -/
def TRANSITIONS : List (String × List String) :=
  [(PENDING_ENTRY, [PENDING_REVIEW]),
   (PENDING_REVIEW, [PENDING_CORRECTION, COMPLETE]),
   (PENDING_CORRECTION, [PENDING_REVIEW]),
   (COMPLETE, [])]

/-- `TRANSITIONS.keys()`. -/
def TRANSITIONS_keys : List String := TRANSITIONS.map (fun p => p.1)

/-- `modes.AUTO, AVAILABLE, ALL = range(3)`. -/
inductive Mode where
  | auto
  | available
  | all
deriving DecidableEq, Repr

/-! ## The attribute/schema/entity data model (from `occams_datastore`) -/

inductive AttrType where
  | sectionT
  | number
  | stringT
  | text
  | date
  | datetime
  | choice
  | blob
deriving DecidableEq, Repr

structure ChoiceRow where
  name : String
  title : String
deriving DecidableEq, Repr

/-- One attribute definition.  `parent_attribute` holds the name of the
enclosing section attribute, if any (the Python object holds a back
reference; only its `.name` is ever read by the code modelled here).
Section children are synthesized recursively by `make_field` in Python;
the claims below concern only a field's own descriptor, so children are
not stored on the attribute record. -/
structure Attribute where
  name : String
  title : String := ""
  description : String := ""
  type : AttrType
  is_collection : Bool := false
  is_required : Bool := false
  value_min : Option Int := Option.none
  value_max : Option Int := Option.none
  pattern : Option String := Option.none
  decimal_places : Option Int := Option.none
  widget : Option String := Option.none
  choices : List ChoiceRow := []
  parent_attribute : Option String := Option.none
deriving DecidableEq, Repr

/-- A schema version row.  `leafs` is the list produced by
`schema.iterleafs()`, in iteration order. -/
structure Schema where
  name : String
  publish_date : String
  retract_date : Option String := Option.none
  leafs : List Attribute := []
deriving DecidableEq, Repr

structure BlobInfo where
  original_name : String
  path : String
  mime_type : String
deriving DecidableEq, Repr

/-- A leaf value as stored on an entity or submitted in a record.
`file` is an uploaded `cgi.FieldStorage`: a client filename plus the
successive non-empty chunks its stream yields when read. -/
inductive Value where
  | none
  | str (s : String)
  | int (i : Int)
  | strList (ss : List String)
  | blob (b : BlobInfo)
  | file (filename : String) (chunks : List String)
deriving DecidableEq, Repr

def Value.isFile : Value → Bool
  | .file _ _ => true
  | _ => false

/-- A value of the submitted/serialized record dictionary: either a leaf
value or a nested section dictionary. -/
inductive Entry where
  | leaf (v : Value)
  | sub (m : List (String × Value))
deriving DecidableEq, Repr

/-- The `ofmetadata_` block of a record. -/
structure MetadataBlock where
  state : Option String := Option.none
  not_done : Bool
  collect_date : String
  version : String
deriving DecidableEq, Repr

/-- A nested record as exchanged between `entity_data` and `apply_data`.
In Python this is one dict whose reserved keys `ofworkflow_` and
`ofmetadata_` sit beside the attribute keys; the embedding separates the
reserved keys structurally (attribute names are assumed not to collide
with the reserved keys).  `ofworkflow_` stores the submitted
`data['ofworkflow_']['state']`. -/
structure Record where
  ofworkflow_ : Option String := Option.none
  ofmetadata_ : Option MetadataBlock := Option.none
  fields : List (String × Entry) := []
deriving DecidableEq, Repr

structure Entity where
  state : Option String
  not_done : Bool
  collect_date : String
  schema : Schema
  values : List (String × Value) := []
deriving DecidableEq, Repr

/-- `entity[name]`: a leaf that was never assigned reads as `None`. -/
def getValue (e : Entity) (n : String) : Value :=
  (lookupA e.values n).getD Value.none

/-- `entity[name] = v`. -/
def entitySet (e : Entity) (n : String) (v : Value) : Entity :=
  { e with values := setA e.values n v }

structure StateRow where
  name : String
  title : String
deriving DecidableEq, Repr

/-- The database rows visible through `session`. -/
structure Session where
  states : List StateRow := []
  schemas : List Schema := []
deriving DecidableEq, Repr

inductive PyError where
  | keyError
  | typeError
  | noResultFound
  | attributeError
deriving DecidableEq, Repr

/-- External nondeterminism: `fresh_paths k` is the uuid4-derived
relative path generated for the `k`-th upload of a call, `mime_of` is
the libmagic MIME sniff of a written file. -/
structure Env where
  fresh_paths : Nat → String
  mime_of : String → String

/-! ## Field synthesis (`make_field`) -/

inductive FilterKind where
  | strip_whitespace
deriving DecidableEq, Repr

inductive Widget where
  | numberInput (decimal_places : Int)
  | telInput
  | emailInput
  | dateInput
  | dateTimeInput
  | selectW (multiple : Bool)
  | listWidget
deriving DecidableEq, Repr

inductive OptionWidget where
  | checkbox
  | radio
deriving DecidableEq, Repr

/-- A WTForms validator as constructed by `make_field`.  `length` keeps
the `-1` sentinel the Python code passes for an absent bound;
`numberRange` keeps the raw optional bounds (`None` is passed through). -/
inductive Validator where
  | inputRequired
  | optional
  | length (min max : Int) (message : Option String)
  | numberRange (min max : Option Int) (message : Option String)
  | dateRange (floor : String)
  | regexp (pattern : String)
deriving DecidableEq, Repr

inductive FieldClass where
  | IntegerField
  | DecimalField
  | StringField
  | TextAreaField
  | DateField
  | DateTimeField
  | SelectMultipleField
  | SelectField
  | FileField
  | FormFieldSection
deriving DecidableEq, Repr

/-- The field descriptor produced by `make_field` (`field_class(**kw)`).
The decimal step is recorded through the widget's digit count; the
Python float computation `round(1 / pow(10, ndigits), ndigits)` is not
itself modelled. -/
structure FieldDescr where
  field_class : FieldClass
  label : String
  description : String
  filters : List FilterKind := []
  validators : List Validator := []
  widget : Option Widget := Option.none
  option_widget : Option OptionWidget := Option.none
  choices : List (String × String) := []
  places : Option Int := Option.none
deriving DecidableEq, Repr

/-- Python truthiness of an optional integer (`None` and `0` are falsy). -/
def truthyOptInt : Option Int → Bool
  | Option.none => false
  | some n => n != 0

/-- `x if x is not None else -1`. -/
def sentinelNeg1 : Option Int → Int
  | Option.none => -1
  | some n => n

/-- The validators appended by the `if a.value_min or
a.value_max:` block of `make_field` (lines 245-281). -/
def minMaxValidators (a : Attribute) : List Validator :=
  if truthyOptInt a.value_min || truthyOptInt a.value_max then
    (if a.type = AttrType.stringT then
      [Validator.length (sentinelNeg1 a.value_min) (sentinelNeg1 a.value_max)
        (if a.value_min = a.value_max then
          some "Field must be %(min)s characters long."
        else Option.none)]
    else []) ++
    (if a.type = AttrType.choice && a.is_collection then
      [Validator.length (sentinelNeg1 a.value_min) (sentinelNeg1 a.value_max)
        (if a.value_min = a.value_max then
          some "Field must be %(min)s characters long."
        else if a.value_min ≠ Option.none ∧ a.value_max = Option.none then
          some "Field must have at least %(min)s selected."
        else if a.value_min = Option.none ∧ a.value_max ≠ Option.none then
          some "Field must have at most %(max)s selected."
        else Option.none)]
    else if a.type = AttrType.number then
      [Validator.numberRange a.value_min a.value_max
        (if a.value_min = a.value_max then
          some "Number must be %(min)s."
        else Option.none)]
    else [])
  else []

/-- Label text for one choice in the long-list presentation
(`u'\x7bchoice.title\x7d - [ \x7bchoice.name\x7d ]'` formatted). -/
def choiceLongLabel (c : ChoiceRow) : String :=
  c.title ++ " - [ " ++ c.name ++ " ]"

/-- Line 240-243 of `make_field`: exactly one required-or-optional
validator. -/
def requiredValidator (a : Attribute) : Validator :=
  if a.is_required then Validator.inputRequired else Validator.optional

/-- Lines 283-284 of `make_field`: the regex validator, when a pattern
is declared. -/
def patternValidators (a : Attribute) : List Validator :=
  match a.pattern with
  | some p => [Validator.regexp p]
  | Option.none => []

/-- The type-dispatched part of `make_field` (lines 164-238) for
non-section attributes: the field class, presentation hints and the
type-intrinsic validators (the date/datetime floor bounds). -/
def baseField (a : Attribute) : FieldDescr :=
  match a.type with
  | AttrType.number =>
    if a.decimal_places = some 0 then
      { field_class := FieldClass.IntegerField,
        label := a.title, description := a.description }
    else
      match a.decimal_places with
      | some n =>
        if n > 0 then
          { field_class := FieldClass.DecimalField,
            label := a.title, description := a.description,
            widget := some (Widget.numberInput n), places := some n }
        else
          { field_class := FieldClass.DecimalField,
            label := a.title, description := a.description }
      | Option.none =>
        { field_class := FieldClass.DecimalField,
          label := a.title, description := a.description }
  | AttrType.stringT =>
    { field_class := FieldClass.StringField,
      label := a.title, description := a.description,
      filters := [FilterKind.strip_whitespace],
      widget := if a.widget = some "phone" then some Widget.telInput
        else if a.widget = some "email" then some Widget.emailInput
        else Option.none }
  | AttrType.text =>
    { field_class := FieldClass.TextAreaField,
      label := a.title, description := a.description,
      filters := [FilterKind.strip_whitespace] }
  | AttrType.date =>
    { field_class := FieldClass.DateField,
      label := a.title, description := a.description,
      widget := some Widget.dateInput,
      validators := [Validator.dateRange "1899-12-31"] }
  | AttrType.datetime =>
    { field_class := FieldClass.DateTimeField,
      label := a.title, description := a.description,
      widget := some Widget.dateTimeInput,
      validators := [Validator.dateRange "1899-12-31T00:00:00"] }
  | AttrType.choice =>
    let long : Bool := a.choices.length > 10
    let baseChoices : List (String × String) :=
      a.choices.map (fun c =>
        (c.name, if long then choiceLongLabel c else c.title))
    let withBlank : List (String × String) :=
      if long && !a.is_collection then ("", "") :: baseChoices else baseChoices
    if a.is_collection then
      { field_class := FieldClass.SelectMultipleField,
        label := a.title, description := a.description,
        choices := withBlank,
        widget := if long then some (Widget.selectW true) else some Widget.listWidget,
        option_widget := if long then Option.none else some OptionWidget.checkbox }
    else
      { field_class := FieldClass.SelectField,
        label := a.title, description := a.description,
        choices := withBlank,
        widget := if long then some (Widget.selectW false) else some Widget.listWidget,
        option_widget := if long then Option.none else some OptionWidget.radio }
  | AttrType.blob =>
    { field_class := FieldClass.FileField,
      label := a.title, description := a.description }
  | AttrType.sectionT =>
    { field_class := FieldClass.FormFieldSection,
      label := a.title, description := a.description }

/-- `make_field` (lines 141-286): converts an attribute to a WTForm
field descriptor.  The section branch returns a sub-form synthesized
from the children and carries no validators of its own (the Python code
returns at line 161 before any validator is attached); every other type
gets the type-intrinsic validators followed by required/optional, the
min/max block and the pattern validator, in source order. -/
def make_field (a : Attribute) : FieldDescr :=
  match a.type with
  | AttrType.sectionT =>
    { field_class := FieldClass.FormFieldSection,
      label := a.title, description := a.description }
  | _ =>
    { baseField a with
      validators := (baseField a).validators ++ [requiredValidator a] ++
        minMaxValidators a ++ patternValidators a }

/-! ## HTML attribute rendering (`render_field`) -/

/-- The HTML5 keyword attributes collected by `render_field`. -/
structure RenderedAttrs where
  required : Bool := false
  minlength : Option Int := Option.none
  maxlength : Option Int := Option.none
  min : Option Int := Option.none
  max : Option Int := Option.none
  pattern : Option String := Option.none
deriving DecidableEq, Repr

/-- Python 2 comparison `x > -1` where `x` may be `None`
(`None > -1` is `False` in Python 2). -/
def pyGtNeg1 : Option Int → Bool
  | Option.none => false
  | some n => n > -1

/-- Whether the field's `flags.required` is set; WTForms sets it when an
`InputRequired` validator is attached. -/
def flagsRequired (validators : List Validator) : Bool :=
  validators.any (fun v => match v with
    | Validator.inputRequired => true
    | _ => false)

/-- `render_field` (lines 107-129), restricted to the keyword-attribute
dictionary it builds.  Line 126 of the source reads
`kw['max'] = validator.min` for a `NumberRange` validator; the model
mirrors that line exactly. -/
def render_field (validators : List Validator) : RenderedAttrs :=
  let kw0 : RenderedAttrs := { required := flagsRequired validators }
  validators.foldl (fun kw v =>
    match v with
    | Validator.length mn mx _ =>
      let kw := if mn > -1 then { kw with minlength := some mn } else kw
      if mx > -1 then { kw with maxlength := some mx } else kw
    | Validator.numberRange mn mx _ =>
      let kw := if pyGtNeg1 mn then { kw with min := mn } else kw
      if pyGtNeg1 mx then { kw with max := mn } else kw
    | Validator.regexp p => { kw with pattern := some p }
    | _ => kw) kw0

/-- Modelled from the spec: the acceptance semantics of the external
`wtforms.validators.NumberRange` collaborator (a value bound: the value
must be at least the minimum and at most the maximum, an absent bound is
not enforced).  The repository only constructs this validator; its
enforcement lives in the wtforms library. -/
def numberRangeAccepts (min max : Option Int) (v : Int) : Bool :=
  (match min with
   | Option.none => true
   | some m => decide (m ≤ v)) &&
  (match max with
   | Option.none => true
   | some m => decide (v ≤ m))

/-! ## Form assembly (`make_form`) -/

/-- Insertion of a string into an ascending list. -/
def insertAsc (x : String) : List String → List String
  | [] => [x]
  | y :: t => if x ≤ y then x :: y :: t else y :: insertAsc x t

/-- Ascending insertion sort, modelling both Python's `sorted` and the
database's `ORDER BY ... ASC`. -/
def sortAsc : List String → List String
  | [] => []
  | x :: t => insertAsc x (sortAsc t)

/-- The metadata version-selector computation of `make_form`
(lines 354-371): the caller-supplied allowed versions (falsy collapses
to the empty list) plus the (possibly overridden) schema's own publish
date, deduplicated and sorted; then the non-retracted stored versions of
the same schema name among them, ascending.  The second component is
whether the length mismatch warning was logged (`log.warn`, non-fatal).
The tuple of identical strings per version mirrors the
`[(str(p), str(p)) ...]` choice pairs. -/
def computeVersionChoices (sess : Session) (schema : Schema)
    (allowed_versions : Option (List String)) :
    List (String × String) × Bool :=
  let av0 : List String :=
    match allowed_versions with
    | Option.none => []
    | some l => if l.isEmpty then [] else l
  let av : List String := sortAsc ((av0 ++ [schema.publish_date]).dedup)
  let actual : List String :=
    sortAsc ((sess.schemas.filter (fun s =>
      s.name == schema.name && av.contains s.publish_date &&
        s.retract_date == Option.none)).map (fun s => s.publish_date))
  let warned : Bool := av.length != actual.length
  (actual.map (fun p => (p, p)), warned)

/-- `TRANSITIONS[current_state]` (a `KeyError` if the state is not in
the table). -/
def transitionsOf (s : String) : Except PyError (List String) :=
  match lookupA TRANSITIONS s with
  | some l => Except.ok l
  | Option.none => Except.error PyError.keyError

/-- The entity reference seen by the form (`meta.entity` or the entity
given to `make_form`). -/
structure EntityRef where
  state : Option String
deriving DecidableEq, Repr

/-- Lines 389-402 of `make_form`: which state names may be offered.
In available mode `entity.state.name` is read and any `AttributeError`
(no entity, or entity without a state) falls back to pending-entry. -/
def allowedStatesFor (transition : Mode) (entity : Option EntityRef) :
    Except PyError (List String) :=
  match transition with
  | Mode.all => Except.ok TRANSITIONS_keys
  | Mode.available =>
    let current : String :=
      match entity with
      | some er =>
        match er.state with
        | some s => s
        | Option.none => PENDING_ENTRY
      | Option.none => PENDING_ENTRY
    transitionsOf current
  | Mode.auto => Except.ok []

/-- Insertion sort of state rows by title, modelling
`ORDER BY state.title`. -/
def insertByTitle (x : StateRow) : List StateRow → List StateRow
  | [] => [x]
  | y :: t => if x.title ≤ y.title then x :: y :: t else y :: insertByTitle x t

def sortByTitle : List StateRow → List StateRow
  | [] => []
  | x :: t => insertByTitle x (sortByTitle t)

/-- Lines 404-424 of `make_form`: when any state may be offered, the
workflow sub-form's choices are a blank entry followed by the matching
state rows ordered by title; with no offerable state the sub-form is
omitted entirely (`None`). -/
def workflowChoices (sess : Session) (allowed : List String) :
    Option (List (String × String)) :=
  if allowed.isEmpty then Option.none
  else some (("", "") ::
    (sortByTitle (sess.states.filter (fun st => allowed.contains st.name))).map
      (fun st => (st.name, st.title)))

/-- The state names among the choices the workflow sub-form offers for
a given allowed set: the empty list when the sub-form is omitted, else
every choice name except the forced blank entry. -/
def offeredOf (sess : Session) (allowed : List String) : List String :=
  match workflowChoices sess allowed with
  | Option.none => []
  | some cs => (cs.filter (fun c => c.1 != "")).map (fun c => c.1)

/-- The set of state names the rendered workflow sub-form offers. -/
def makeFormWorkflowStates (sess : Session) (transition : Mode)
    (entity : Option EntityRef) : Except PyError (List String) :=
  match allowedStatesFor transition entity with
  | Except.error e => Except.error e
  | Except.ok allowed => Except.ok (offeredOf sess allowed)

/-! ## Composite validation (`DatastoreForm.validate`, lines 321-341) -/

/-- The validation-relevant view of one assembled `DatastoreForm`
instance: which sub-forms are present, the data each carries, and the
outcome each sub-validation would report. -/
structure FormView where
  hasWorkflow : Bool := false
  workflowValid : Bool := true
  workflowState : Option String := Option.none
  entity : Option EntityRef := Option.none
  hasMetadata : Bool := false
  metadataNotDone : Bool := false
  metadataValid : Bool := true
  dataFieldsValid : Bool := true
deriving DecidableEq, Repr

/-- `super(DatastoreForm, self).validate(**kw)`: the WTForms base
validator runs every bound field, including the workflow and metadata
`FormField`s when present, and the schema's data fields. -/
def superValidate (f : FormView) : Bool :=
  (if f.hasWorkflow then f.workflowValid else true) &&
  (if f.hasMetadata then f.metadataValid else true) &&
  f.dataFieldsValid

/-- `DatastoreForm.validate`.  Reading `self.meta.entity.state.name`
raises `AttributeError` when the bound entity exists but has no state. -/
def DatastoreForm.validate (f : FormView) : Except PyError Bool :=
  let status : Bool := true
  let status : Bool := if f.hasWorkflow then status && f.workflowValid else status
  if f.hasWorkflow && (f.workflowState == some PENDING_ENTRY) then
    Except.ok status
  else
    let rest : Except PyError Bool :=
      if f.hasMetadata && f.metadataNotDone then
        Except.ok (status && f.metadataValid)
      else
        Except.ok (status && superValidate f)
    match f.entity with
    | Option.none => rest
    | some er =>
      match er.state with
      | Option.none => Except.error PyError.attributeError
      | some s => if s == COMPLETE then Except.ok status else rest

/-! ## Entity serialization (`entity_data`, lines 482-505) -/

/-- The per-leaf body of the `entity_data` loop.  `data.setdefault` on a
key already holding a plain value cannot be indexed into; that raises a
`TypeError` in Python and is modelled as such (it cannot occur for the
well-formed schemata hypothesised by the theorems below). -/
def entityDataStep (e : Entity) (fields : List (String × Entry))
    (a : Attribute) : Except PyError (List (String × Entry)) :=
  match a.parent_attribute with
  | Option.none =>
    Except.ok (setA fields a.name (Entry.leaf (getValue e a.name)))
  | some p =>
    match lookupA fields p with
    | Option.none =>
      Except.ok (setA fields p (Entry.sub [(a.name, getValue e a.name)]))
    | some (Entry.sub m) =>
      Except.ok (setA fields p (Entry.sub (setA m a.name (getValue e a.name))))
    | some (Entry.leaf _) => Except.error PyError.typeError

def entityDataFields (e : Entity) :
    List Attribute → List (String × Entry) → Except PyError (List (String × Entry))
  | [], fields => Except.ok fields
  | a :: rest, fields =>
    match entityDataStep e fields a with
    | Except.ok fields' => entityDataFields e rest fields'
    | Except.error err => Except.error err

/-- `entity_data`: serializes an entity into a nested record. -/
def entity_data (e : Entity) : Except PyError Record :=
  match entityDataFields e e.schema.leafs [] with
  | Except.error err => Except.error err
  | Except.ok fields =>
    Except.ok
      { ofworkflow_ := Option.none,
        ofmetadata_ := some
          { state := e.state,
            not_done := e.not_done,
            collect_date := e.collect_date,
            version := e.schema.publish_date },
        fields := fields }

/-! ## Entity application (`apply_data`, lines 508-625) -/

/-- The local variable `data` of `apply_data`.  It starts as the
submitted record but line 589 (`data = input_file.read(2 << 16)`)
rebinds it to the byte chunks read from an upload stream. -/
inductive DataVar where
  | record (d : Record)
  | bytes (b : String)
deriving DecidableEq, Repr

/-- The final value of `data` after the upload copy loop: the first
falsy chunk the stream yields (reading at end of stream yields an empty
byte string, so the loop always leaves the empty string). -/
def readLoop : List String → String
  | [] => ""
  | c :: cs => if c = "" then c else readLoop cs

/-- Whether `pat` is a prefix of `l`. -/
def hasPre : List Char → List Char → Bool
  | [], _ => true
  | _ :: _, [] => false
  | p :: ps, c :: cs => p == c && hasPre ps cs

/-- Whether `pat` occurs as a contiguous run of `l`. -/
def hasSub : List Char → List Char → Bool
  | [], pat => hasPre pat []
  | c :: t, pat => hasPre pat (c :: t) || hasSub t pat

/-- Python 2 `needle in haystack` on byte strings: substring test. -/
def bytesContains (b pat : String) : Bool :=
  hasSub b.data pat.data

/-- `key in data` on the submitted record dict: the reserved keys and
the attribute keys. -/
def recMem (d : Record) (n : String) : Bool :=
  (n == "ofworkflow_" && d.ofworkflow_.isSome) ||
  (n == "ofmetadata_" && d.ofmetadata_.isSome) ||
  (lookupA d.fields n).isSome

/-- The object bound to the local `parent` in the apply loop. -/
inductive ParentView where
  | whole (d : Record)
  | dict (m : List (String × Value))
  | bytesView (b : String)
  | strView (s : String)
deriving DecidableEq, Repr

/-- Lines 557-560: select the parent container for one leaf.  Indexing
a byte string with a string key raises `TypeError`; an absent section
key raises `KeyError`; a section key bound to a plain string is usable
only for the later substring membership test, any other plain value
makes the membership test raise `TypeError` (modelled below). -/
def parentOf (dv : DataVar) (a : Attribute) : Except PyError ParentView :=
  match a.parent_attribute with
  | Option.none =>
    match dv with
    | DataVar.record d => Except.ok (ParentView.whole d)
    | DataVar.bytes b => Except.ok (ParentView.bytesView b)
  | some p =>
    match dv with
    | DataVar.bytes _ => Except.error PyError.typeError
    | DataVar.record d =>
      match lookupA d.fields p with
      | Option.none => Except.error PyError.keyError
      | some (Entry.sub m) => Except.ok (ParentView.dict m)
      | some (Entry.leaf (Value.str s)) => Except.ok (ParentView.strView s)
      | some (Entry.leaf _) => Except.ok (ParentView.strView "")

/-- `attribute.name not in parent`, negated (Python 2 semantics for
byte-string membership). -/
def parentMem (p : ParentView) (n : String) : Bool :=
  match p with
  | ParentView.whole d => recMem d n
  | ParentView.dict m => (lookupA m n).isSome
  | ParentView.bytesView b => bytesContains b n
  | ParentView.strView s => bytesContains s n

/-- `parent[attribute.name]` for a non-blob leaf.  A value that is
itself a section mapping would be assigned through to the entity by
Python; under the well-formedness hypotheses used below that cannot
happen and it is modelled as a `TypeError`. -/
def parentGet (p : ParentView) (n : String) : Except PyError Value :=
  match p with
  | ParentView.whole d =>
    match lookupA d.fields n with
    | some (Entry.leaf v) => Except.ok v
    | some (Entry.sub _) => Except.error PyError.typeError
    | Option.none => Except.error PyError.keyError
  | ParentView.dict m =>
    match lookupA m n with
    | some v => Except.ok v
    | Option.none => Except.error PyError.keyError
  | ParentView.bytesView _ => Except.error PyError.typeError
  | ParentView.strView _ => Except.error PyError.typeError

/-- `data[attribute.name]` as read by the blob branch (line 572): a
top-level read of the current `data` binding, regardless of the
attribute's parent section. -/
def dataIndex (dv : DataVar) (n : String) : Except PyError Entry :=
  match dv with
  | DataVar.record d =>
    match lookupA d.fields n with
    | some en => Except.ok en
    | Option.none => Except.error PyError.keyError
  | DataVar.bytes _ => Except.error PyError.typeError

/-- `os.path.basename`: the part of the path after the last slash. -/
def basename (p : String) : String :=
  String.mk (((p.data.reverse).takeWhile (fun c => c != '/')).reverse)

/-- The per-leaf loop of `apply_data` (lines 550-623), threading the
entity, the (rebindable) `data` variable and the number of uploads
already written (which indexes the fresh uuid4 path supply).  The
filesystem writes, `fsync`, `os.rename` of the temporary file and the
`os.unlink` of a replaced attachment are effects outside the entity and
are elided; the `BlobInfo` descriptor records exactly the original
filename, destination path and sniffed MIME type the Python code
stores. -/
def applyLeafs (env : Env) (upload_path : String) (clear_data : Bool) :
    List Attribute → Entity → DataVar → Nat → Except PyError Entity
  | [], entity, _, _ => Except.ok entity
  | a :: rest, entity, dv, uploads =>
    if clear_data then
      applyLeafs env upload_path clear_data rest
        (entitySet entity a.name Value.none) dv uploads
    else
      match parentOf dv a with
      | Except.error err => Except.error err
      | Except.ok parent =>
        if !parentMem parent a.name then
          applyLeafs env upload_path clear_data rest entity dv uploads
        else if a.type = AttrType.blob then
          match dataIndex dv a.name with
          | Except.error err => Except.error err
          | Except.ok (Entry.leaf (Value.file filename chunks)) =>
            let original_name : String := basename filename
            let generated_path : String := env.fresh_paths uploads
            let dest_path : String := upload_path ++ "/" ++ generated_path
            let newData : DataVar := DataVar.bytes (readLoop chunks)
            let mime_type : String := env.mime_of dest_path
            let value : Value :=
              Value.blob (BlobInfo.mk original_name dest_path mime_type)
            applyLeafs env upload_path clear_data rest
              (entitySet entity a.name value) newData (uploads + 1)
          | Except.ok _ =>
            applyLeafs env upload_path clear_data rest
              (entitySet entity a.name Value.none) dv uploads
        else
          match parentGet parent a.name with
          | Except.error err => Except.error err
          | Except.ok v =>
            applyLeafs env upload_path clear_data rest
              (entitySet entity a.name v) dv uploads

/-- `session.query(datastore.State).filter_by(name=...).one()`. -/
def stateLookupOne (sess : Session) (name : String) : Except PyError StateRow :=
  match sess.states.filter (fun st => st.name == name) with
  | [st] => Except.ok st
  | _ => Except.error PyError.noResultFound

/-- `session.query(datastore.Schema).filter_by(name=..., publish_date=...).one()`. -/
def schemaLookupOne (sess : Session) (name version : String) :
    Except PyError Schema :=
  match sess.schemas.filter (fun s =>
      s.name == name && s.publish_date == version) with
  | [s] => Except.ok s
  | _ => Except.error PyError.noResultFound

/-- The `next_state` of `apply_data`: the workflow block's state when
present, else pending-review. -/
def nextStateOf (data : Record) : String :=
  match data.ofworkflow_ with
  | some s => s
  | Option.none => PENDING_REVIEW

/-- `apply_data`: updates an entity with a record.  The
`assert upload_path is not None` precondition is enforced by taking the
path as a plain string. -/
def apply_data (sess : Session) (env : Env) (entity : Entity)
    (data : Record) (upload_path : String) : Except PyError Entity :=
  let previous_state : Option String := entity.state
  let next_state : String := nextStateOf data
  let step1 : Except PyError Entity :=
    if previous_state == some next_state then Except.ok entity
    else
      match stateLookupOne sess next_state with
      | Except.ok st => Except.ok { entity with state := some st.name }
      | Except.error err => Except.error err
  match step1 with
  | Except.error err => Except.error err
  | Except.ok e1 =>
    if previous_state == some COMPLETE then Except.ok e1
    else
      let e2E : Except PyError Entity :=
        match data.ofmetadata_ with
        | Option.none => Except.ok e1
        | some metadata =>
          let nd : Bool :=
            if next_state == PENDING_ENTRY then false else metadata.not_done
          match schemaLookupOne sess e1.schema.name metadata.version with
          | Except.ok s' =>
            Except.ok { e1 with
              not_done := nd, collect_date := metadata.collect_date, schema := s' }
          | Except.error err => Except.error err
      match e2E with
      | Except.error err => Except.error err
      | Except.ok e2 =>
        let clear_data : Bool := e2.not_done || (next_state == PENDING_ENTRY)
        applyLeafs env upload_path clear_data e2.schema.leafs e2
          (DataVar.record data) 0

/-! ## Claim C2: numeric bounds passed through vs the rendered max -/

/-- A number attribute with `value_min=1`, `value_max=5`. -/
def numberAttr15 : Attribute :=
  { name := "score", type := AttrType.number,
    value_min := some 1, value_max := some 5 }

/-! ## Claim C10: falsy bounds attach no validator -/

/-- Whether a validator is one of the two bound-derived kinds
(`Length` or `NumberRange`). -/
def isMinMaxValidator : Validator → Bool
  | Validator.length _ _ _ => true
  | Validator.numberRange _ _ _ => true
  | _ => false

/-- A string attribute with a declared bound of exactly 0. -/
def stringAttr0 : Attribute :=
  { name := "s", type := AttrType.stringT, value_min := some 0 }

/-! ## Claim C7: composite validation short-circuit order -/

/-- The running `status` after the workflow step of
`DatastoreForm.validate`: the workflow sub-form's verdict when one is
present, else true. -/
def workflowStatus (f : FormView) : Bool :=
  if f.hasWorkflow then f.workflowValid else true

/-- A session holding exactly the four workflow states. -/
def sessFourStates : Session :=
  { states := [⟨"pending-review", "Review pending"⟩,
               ⟨"pending-entry", "Entry pending"⟩,
               ⟨"complete", "Complete"⟩,
               ⟨"pending-correction", "Correction pending"⟩] }

/-! ## Claim C8: version selector choice set -/

/-- The state-name component of the version selector's resolved
choices. -/
def versionChoiceNames (sess : Session) (schema : Schema)
    (allowed_versions : Option (List String)) : List String :=
  ((computeVersionChoices sess schema allowed_versions).1).map (fun c => c.1)

/-- A complete entity used by the read-only witnesses. -/
def completeEntity : Entity :=
  { state := some "complete", not_done := false, collect_date := "2014-05-05",
    schema := { name := "F", publish_date := "2014-01-01",
                leafs := [{ name := "q", type := AttrType.stringT }] },
    values := [("q", Value.str "kept")] }

/-- A shared concrete environment for witnesses. -/
def env0 : Env := { fresh_paths := fun _ => "gen", mime_of := fun _ => "mime" }

/-- A complete entity flagged not-done, holding one value. -/
def entityA : Entity :=
  { state := some "complete", not_done := true, collect_date := "c",
    schema := { name := "F", publish_date := "v",
                leafs := [{ name := "q", type := AttrType.stringT }] },
    values := [("q", Value.str "kept")] }

/-- A pending-correction entity flagged not-done. -/
def entityB : Entity :=
  { state := some "pending-correction", not_done := true, collect_date := "c",
    schema := { name := "F", publish_date := "v",
                leafs := [{ name := "q", type := AttrType.stringT }] },
    values := [("q", Value.str "x")] }

/-- Session and inputs for the C4 witness. -/
def sessW : Session :=
  { states := sessFourStates.states,
    schemas := [{ name := "F", publish_date := "v",
                  leafs := [{ name := "q", type := AttrType.stringT }] }] }

def entityW : Entity :=
  { state := some "pending-review", not_done := false, collect_date := "c",
    schema := { name := "F", publish_date := "v",
                leafs := [{ name := "q", type := AttrType.stringT }] },
    values := [("q", Value.str "x")] }

def recordW : Record :=
  { ofworkflow_ := some "pending-entry",
    ofmetadata_ := some { not_done := true, collect_date := "cd", version := "v" },
    fields := [("q", Entry.leaf (Value.str "ignored"))] }

def resultW : Entity :=
  { state := some "pending-entry", not_done := false, collect_date := "cd",
    schema := { name := "F", publish_date := "v",
                leafs := [{ name := "q", type := AttrType.stringT }] },
    values := [("q", Value.none)] }

/-- Schema rows for the C8 witness: one active and one retracted
version of the same form. -/
def schemaV1 : Schema := { name := "F", publish_date := "2014-01-01" }

def schemaV2r : Schema :=
  { name := "F", publish_date := "2014-06-01", retract_date := some "2014-07-01" }

def sessVersions : Session := { states := [], schemas := [schemaV1, schemaV2r] }

/-! ## Claim C5: patch semantics for absent keys -/

/-- Whether a record entry is an uploaded file stream. -/
def Entry.isUploadFile : Entry → Bool
  | Entry.leaf (Value.file _ _) => true
  | _ => false

/-- No top-level record entry is an uploaded file stream (such an entry
would trigger the `data` rebinding of C9). -/
def recNoTopUpload (d : Record) : Prop :=
  ∀ pr ∈ d.fields, pr.2.isUploadFile = false

/-- The submitted record omits this leaf's key: a top-level leaf absent
from the record, or a leaf absent from its (present) parent section
mapping. -/
def skipCond (d : Record) (a : Attribute) : Prop :=
  match a.parent_attribute with
  | Option.none => recMem d a.name = false
  | some p => ∃ m, lookupA d.fields p = some (Entry.sub m) ∧
      lookupA m a.name = Option.none

/-- An entity whose only leaf lives inside section `s`. -/
def entityNested : Entity :=
  { state := some "pending-review", not_done := false, collect_date := "c",
    schema := { name := "G", publish_date := "v",
                leafs := [{ name := "g", type := AttrType.stringT,
                            parent_attribute := some "s" }] },
    values := [("g", Value.str "old")] }

def gAttr : Attribute :=
  { name := "g", type := AttrType.stringT, parent_attribute := some "s" }

def entityC5 : Entity :=
  { state := some "pending-review", not_done := false, collect_date := "c",
    schema := { name := "G", publish_date := "v",
                leafs := [{ name := "q", type := AttrType.stringT }, gAttr] },
    values := [("q", Value.str "qv"), ("g", Value.str "old")] }

def recordC5 : Record :=
  { ofworkflow_ := some "pending-review",
    fields := [("q", Entry.leaf (Value.str "newq")), ("s", Entry.sub [])] }

def resultC5 : Entity :=
  { entityC5 with values := [("q", Value.str "newq"), ("g", Value.str "old")] }

def b1Attr : Attribute := { name := "b1", type := AttrType.blob }

def t1Attr : Attribute := { name := "t1", type := AttrType.stringT }

def entityC9 : Entity :=
  { state := some "pending-review", not_done := false, collect_date := "c",
    schema := { name := "H", publish_date := "v", leafs := [b1Attr, t1Attr] },
    values := [("t1", Value.str "old")] }

def recordC9 : Record :=
  { fields := [("b1", Entry.leaf (Value.file "dir/orig.txt" ["abc", "def"])),
               ("t1", Entry.leaf (Value.str "new"))] }

/-! ## Claim C1: round-trip through entity_data and apply_data -/

/-- Invariant of the `entity_data` fold: after serializing `processed`
leaves, every processed top-level leaf sits at its own key, every
processed nested leaf sits inside its parent's section mapping, every
key of the dictionary was put there by some processed leaf, and every
parent key holds a section mapping. -/
def EDGood (e : Entity) (processed : List Attribute)
    (fields : List (String × Entry)) : Prop :=
  (∀ a ∈ processed, a.parent_attribute = Option.none →
    lookupA fields a.name = some (Entry.leaf (getValue e a.name))) ∧
  (∀ a ∈ processed, ∀ p, a.parent_attribute = some p →
    ∃ m, lookupA fields p = some (Entry.sub m) ∧
      lookupA m a.name = some (getValue e a.name)) ∧
  (∀ k en, lookupA fields k = some en →
    ∃ a ∈ processed, ((a.parent_attribute = Option.none ∧ a.name = k) ∨
      a.parent_attribute = some k)) ∧
  (∀ k, (∃ a ∈ processed, a.parent_attribute = some k) →
    ∃ m, lookupA fields k = some (Entry.sub m))

/- Concrete data for the round-trip analysis: a schema with a single
   top-level blob attribute holding a stored blob descriptor, and a schema
   with a blob attribute nested under a section. -/

def schemaF : Schema :=
  { name := "F", publish_date := "2014-01-01",
    leafs := [{ name := "f", type := AttrType.blob }] }

def entityBlob : Entity :=
  { state := some PENDING_ENTRY, not_done := false, collect_date := "cd",
    schema := schemaF, values := [("f", Value.blob ⟨"orig", "p0", "m0"⟩)] }

def sessRT : Session := { states := sessFourStates.states, schemas := [schemaF] }

def recBlob : Record :=
  { ofworkflow_ := Option.none,
    ofmetadata_ := some
      { state := some PENDING_ENTRY, not_done := false,
        collect_date := "cd", version := "2014-01-01" },
    fields := [("f", Entry.leaf (Value.blob ⟨"orig", "p0", "m0"⟩))] }

def resultBlob : Entity :=
  { state := some PENDING_REVIEW, not_done := false, collect_date := "cd",
    schema := schemaF, values := [("f", Value.none)] }

def schemaK : Schema :=
  { name := "K", publish_date := "v",
    leafs := [{ name := "fb", type := AttrType.blob,
                parent_attribute := some "s" }] }

def entityBlobNested : Entity :=
  { state := some PENDING_REVIEW, not_done := false, collect_date := "c",
    schema := schemaK, values := [("fb", Value.blob ⟨"o", "p", "m"⟩)] }

def sessRT2 : Session := { states := sessFourStates.states, schemas := [schemaK] }

def recBlobNested : Record :=
  { ofworkflow_ := Option.none,
    ofmetadata_ := some
      { state := some PENDING_REVIEW, not_done := false,
        collect_date := "c", version := "v" },
    fields := [("s", Entry.sub [("fb", Value.blob ⟨"o", "p", "m"⟩)])] }

/- Concrete data for the round-trip witness: one string leaf and one
   top-level blob leaf. -/

def leafSx : Attribute := { name := "sx", type := AttrType.stringT }

def leafFx : Attribute := { name := "fx", type := AttrType.blob }

def schemaRT : Schema :=
  { name := "R", publish_date := "pv", leafs := [leafSx, leafFx] }

def entityRT : Entity :=
  { state := some PENDING_ENTRY, not_done := false, collect_date := "cd",
    schema := schemaRT,
    values := [("sx", Value.str "hello"), ("fx", Value.blob ⟨"o", "p", "m"⟩)] }

def sessRT3 : Session := { states := sessFourStates.states, schemas := [schemaRT] }

theorem lookupA_setA {α : Type} (l : List (String × α)) (n m : String) (v : α) :
    lookupA (setA l n v) m = if m = n then some v else lookupA l m := by
  induction l with
  | nil =>
    by_cases h : m = n
    · subst h
      simp [setA, lookupA]
    · simp [setA, lookupA, h, Ne.symm h]
  | cons hd t ih =>
    obtain ⟨k, w⟩ := hd
    by_cases hk : k = n
    · subst hk
      by_cases hm : m = k
      · subst hm
        simp [setA, lookupA]
      · simp [setA, lookupA, hm, Ne.symm hm]
    · by_cases hm : k = m
      · subst hm
        simp [setA, lookupA, hk]
      · simp [setA, lookupA, hk, hm, ih]

theorem lookupA_setA_self {α : Type} (l : List (String × α)) (n : String) (v : α) :
    lookupA (setA l n v) n = some v := by
  simp [lookupA_setA]

theorem lookupA_setA_ne {α : Type} (l : List (String × α)) (n m : String) (v : α)
    (h : m ≠ n) : lookupA (setA l n v) m = lookupA l m := by
  simp [lookupA_setA, h]

theorem mem_insertAsc (a x : String) (l : List String) :
    a ∈ insertAsc x l ↔ a = x ∨ a ∈ l := by
  induction l with
  | nil => simp [insertAsc]
  | cons y t ih =>
    by_cases h : x ≤ y
    · simp [insertAsc, h]
    · simp [insertAsc, h, ih]
      tauto

theorem mem_sortAsc (a : String) (l : List String) :
    a ∈ sortAsc l ↔ a ∈ l := by
  induction l with
  | nil => simp [sortAsc]
  | cons x t ih => simp [sortAsc, mem_insertAsc, ih]

theorem insertAsc_perm (x : String) (l : List String) :
    List.Perm (insertAsc x l) (x :: l) := by
  induction l with
  | nil => simp [insertAsc]
  | cons y t ih =>
    by_cases h : x ≤ y
    · simp [insertAsc, h]
    · simpa [insertAsc, h] using
        ((ih.cons y).trans (List.Perm.swap x y t))

theorem sortAsc_perm (l : List String) : List.Perm (sortAsc l) l := by
  induction l with
  | nil => simp [sortAsc]
  | cons x t ih =>
    exact (insertAsc_perm x (sortAsc t)).trans (ih.cons x)

theorem sorted_insertAsc (x : String) (l : List String)
    (h : l.Pairwise (fun a b => a ≤ b)) :
    (insertAsc x l).Pairwise (fun a b => a ≤ b) := by
  induction l with
  | nil => simp [insertAsc]
  | cons y t ih =>
    rcases List.pairwise_cons.mp h with ⟨hy, ht⟩
    by_cases hxy : x ≤ y
    · rw [insertAsc, if_pos hxy]
      refine List.pairwise_cons.mpr ⟨?_, h⟩
      intro b hb
      rcases List.mem_cons.mp hb with hb | hb
      · exact hb ▸ hxy
      · exact le_trans hxy (hy b hb)
    · rw [insertAsc, if_neg hxy]
      refine List.pairwise_cons.mpr ⟨?_, ih ht⟩
      intro b hb
      rcases (mem_insertAsc b x t).mp hb with hb | hb
      · exact hb ▸ le_of_not_le hxy
      · exact hy b hb

theorem sorted_sortAsc (l : List String) :
    (sortAsc l).Pairwise (fun a b => a ≤ b) := by
  induction l with
  | nil => simp [sortAsc]
  | cons x t ih => exact sorted_insertAsc x (sortAsc t) ih

theorem nodup_sortAsc (l : List String) (h : l.Nodup) :
    (sortAsc l).Nodup := ((sortAsc_perm l).nodup_iff).mpr h

theorem mem_insertByTitle (a x : StateRow) (l : List StateRow) :
    a ∈ insertByTitle x l ↔ a = x ∨ a ∈ l := by
  induction l with
  | nil => simp [insertByTitle]
  | cons y t ih =>
    by_cases h : x.title ≤ y.title
    · simp [insertByTitle, h]
    · simp [insertByTitle, h, ih]
      tauto

theorem mem_sortByTitle (a : StateRow) (l : List StateRow) :
    a ∈ sortByTitle l ↔ a ∈ l := by
  induction l with
  | nil => simp [sortByTitle]
  | cons x t ih => simp [sortByTitle, mem_insertByTitle, ih]

theorem readLoop_eq_empty (l : List String) : readLoop l = "" := by
  induction l with
  | nil => rfl
  | cons c cs ih =>
    by_cases h : c = "" <;> simp [readLoop, h, ih]

theorem bytesContains_empty (p : String) (h : p ≠ "") :
    bytesContains "" p = false := by
  cases p with
  | mk l =>
    cases l with
    | nil => exact absurd rfl h
    | cons c cs => rfl

/-- C2: for a number attribute with `value_min=1` and `value_max=5`,
`make_field` constructs a `NumberRange` validator carrying the true
bounds `(1, 5)`, and that validator rejects a submitted `6` precisely
because of the upper bound `5` (the lower bound alone would accept it);
but the HTML attributes produced by `render_field` advertise
`max = 1` — a copy of the minimum — instead of `5` (source line 126,
`kw['max'] = validator.min`).  This evaluates the code at the claim's
failing input and exhibits the divergence. -/
theorem render_field_number_max_is_copy_of_min :
    (make_field numberAttr15).validators =
      [Validator.optional, Validator.numberRange (some 1) (some 5) Option.none] ∧
    numberRangeAccepts (some 1) (some 5) 6 = false ∧
    numberRangeAccepts (some 1) Option.none 6 = true ∧
    numberRangeAccepts (some 1) (some 5) 5 = true ∧
    (render_field (make_field numberAttr15).validators).max = some 1 ∧
    (render_field (make_field numberAttr15).validators).min = some 1 := by
  refine ⟨rfl, rfl, rfl, rfl, rfl, rfl⟩

theorem truthyOptInt_none : truthyOptInt Option.none = false := rfl

theorem minMaxValidators_eq_nil (a : Attribute)
    (hmin : truthyOptInt a.value_min = false)
    (hmax : truthyOptInt a.value_max = false) :
    minMaxValidators a = [] := by
  simp [minMaxValidators, hmin, hmax]

theorem baseField_validators_no_minmax (a : Attribute) :
    ∀ v ∈ (baseField a).validators, isMinMaxValidator v = false := by
  intro v hv
  cases ht : a.type <;> simp only [baseField, ht] at hv
  all_goals repeat' split at hv
  all_goals simp_all [isMinMaxValidator]

theorem make_field_validators (a : Attribute) (h : a.type ≠ AttrType.sectionT) :
    (make_field a).validators =
      (baseField a).validators ++ [requiredValidator a] ++
        minMaxValidators a ++ patternValidators a := by
  cases ht : a.type <;> simp [make_field, ht] <;> simp_all

/-- C10: when `value_min` and `value_max` are each absent or exactly 0
(Python-falsy), `make_field` attaches no `Length` or `NumberRange`
validator at all, and the produced field is identical to the one for
the same attribute with no bounds declared. -/
theorem make_field_falsy_bounds_no_validator (a : Attribute)
    (hmin : truthyOptInt a.value_min = false)
    (hmax : truthyOptInt a.value_max = false) :
    (∀ v ∈ (make_field a).validators, isMinMaxValidator v = false) ∧
    make_field a =
      make_field { a with value_min := Option.none, value_max := Option.none } := by
  constructor
  · intro v hv
    by_cases hs : a.type = AttrType.sectionT
    · simp [make_field, hs] at hv
    · rw [make_field_validators a hs] at hv
      simp only [List.mem_append, List.mem_singleton] at hv
      rcases hv with ((hv | hv) | hv) | hv
      · exact baseField_validators_no_minmax a v hv
      · subst hv
        by_cases hr : a.is_required <;> simp [requiredValidator, hr, isMinMaxValidator]
      · rw [minMaxValidators_eq_nil a hmin hmax] at hv
        simp at hv
      · rcases hp : a.pattern with _ | p <;>
          simp [patternValidators, hp] at hv
        subst hv
        simp [isMinMaxValidator]
  · cases ht : a.type <;>
      simp [make_field, ht, minMaxValidators, hmin, hmax, requiredValidator,
        patternValidators, baseField, truthyOptInt_none]

/-- Witness for C10 at a concrete attribute: a string attribute with
`value_min = 0` and absent `value_max` produces exactly the field of the
same attribute with no bounds declared. -/
theorem make_field_falsy_bounds_no_validator_witness :
    make_field stringAttr0 =
      make_field
        { stringAttr0 with value_min := Option.none, value_max := Option.none } :=
  (make_field_falsy_bounds_no_validator stringAttr0 (by decide) (by decide)).2

/-- C7: the composite validation short-circuits in source order.
With a workflow field choosing pending-entry the result is the workflow
verdict alone; otherwise a bound entity in complete state stops after
the workflow verdict; otherwise a metadata block with the not-collected
flag set validates only the metadata sub-form; otherwise the metadata
and every field validate through the WTForms base validator.  Each
early branch's result is stated without reference to the later
sub-results, which formalizes that no further validation affects it. -/
theorem DatastoreForm_validate_order (f : FormView)
    (hwf : ∀ er, f.entity = some er → er.state ≠ Option.none) :
    (f.hasWorkflow = true → f.workflowState = some PENDING_ENTRY →
      DatastoreForm.validate f = Except.ok f.workflowValid) ∧
    ((f.hasWorkflow = false ∨ f.workflowState ≠ some PENDING_ENTRY) →
      ∀ er, f.entity = some er → er.state = some COMPLETE →
      DatastoreForm.validate f = Except.ok (workflowStatus f)) ∧
    ((f.hasWorkflow = false ∨ f.workflowState ≠ some PENDING_ENTRY) →
      (∀ er, f.entity = some er → er.state ≠ some COMPLETE) →
      f.hasMetadata = true → f.metadataNotDone = true →
      DatastoreForm.validate f =
        Except.ok (workflowStatus f && f.metadataValid)) ∧
    ((f.hasWorkflow = false ∨ f.workflowState ≠ some PENDING_ENTRY) →
      (∀ er, f.entity = some er → er.state ≠ some COMPLETE) →
      (f.hasMetadata = false ∨ f.metadataNotDone = false) →
      DatastoreForm.validate f =
        Except.ok (workflowStatus f && superValidate f)) := by
  refine ⟨?_, ?_, ?_, ?_⟩
  · intro hw hst
    simp [DatastoreForm.validate, hw, hst, workflowStatus]
  · intro hcond er he hst
    have hc : (f.hasWorkflow && (f.workflowState == some PENDING_ENTRY)) = false := by
      rcases hcond with h | h <;> simp [h]
    simp [DatastoreForm.validate, hc, he, hst, workflowStatus]
  · intro hcond hentity hm hnd
    have hc : (f.hasWorkflow && (f.workflowState == some PENDING_ENTRY)) = false := by
      rcases hcond with h | h <;> simp [h]
    rcases he : f.entity with _ | er
    · simp [DatastoreForm.validate, hc, he, hm, hnd, workflowStatus]
    · rcases hs : er.state with _ | sname
      · exact absurd hs (hwf er he)
      · have hnc : (sname == COMPLETE) = false := by
          have := hentity er he
          rw [hs] at this
          simpa using fun h => this (by rw [h])
        simp [DatastoreForm.validate, hc, he, hs, hnc, hm, hnd, workflowStatus]
  · intro hcond hentity hmeta
    have hc : (f.hasWorkflow && (f.workflowState == some PENDING_ENTRY)) = false := by
      rcases hcond with h | h <;> simp [h]
    have hm : (f.hasMetadata && f.metadataNotDone) = false := by
      rcases hmeta with h | h <;> simp [h]
    rcases he : f.entity with _ | er
    · simp [DatastoreForm.validate, hc, he, hm, workflowStatus]
    · rcases hs : er.state with _ | sname
      · exact absurd hs (hwf er he)
      · have hnc : (sname == COMPLETE) = false := by
          have := hentity er he
          rw [hs] at this
          simpa using fun h => this (by rw [h])
        simp [DatastoreForm.validate, hc, he, hs, hnc, hm, workflowStatus]

/-- Witness for C7: an assembled form with no sub-forms and a valid
field set validates through the base validator with result true. -/
theorem DatastoreForm_validate_order_witness :
    DatastoreForm.validate {} = Except.ok true := by
  have h := (DatastoreForm_validate_order {}
    (by intro er h; simp at h)).2.2.2
    (Or.inl rfl) (by intro er h; simp at h) (Or.inl rfl)
  simpa [workflowStatus, superValidate] using h

/-! ## Claim C6: workflow choice sets offered by make_form -/

/-- Membership in the offered workflow state-name set, for a non-empty
allowed list: exactly the states present in the database whose name is
allowed (the blank choice is not a state). -/
theorem offeredOf_mem (sess : Session) (allowed : List String)
    (h : allowed.isEmpty = false) (s : String) :
    s ∈ offeredOf sess allowed ↔
      ((∃ st ∈ sess.states, st.name = s) ∧ s ∈ allowed ∧ s ≠ "") := by
  simp only [offeredOf, workflowChoices, h, Bool.false_eq_true, if_false]
  constructor
  · intro hs
    rcases List.mem_map.mp hs with ⟨c, hc, rfl⟩
    rcases List.mem_filter.mp hc with ⟨hcm, hcne⟩
    rcases List.mem_cons.mp hcm with hblank | hrow
    · rw [hblank] at hcne
      simp at hcne
    · rcases List.mem_map.mp hrow with ⟨st, hst, rfl⟩
      have hst' := (mem_sortByTitle st _).mp hst
      rcases List.mem_filter.mp hst' with ⟨hmem, hall⟩
      refine ⟨⟨st, hmem, rfl⟩, List.elem_iff.mp hall, ?_⟩
      simpa using hcne
  · rintro ⟨⟨st, hmem, rfl⟩, hall, hne⟩
    refine List.mem_map.mpr ⟨(st.name, st.title), ?_, rfl⟩
    refine List.mem_filter.mpr ⟨?_, by simpa using hne⟩
    refine List.mem_cons.mpr (Or.inr ?_)
    refine List.mem_map.mpr ⟨st, ?_, rfl⟩
    exact (mem_sortByTitle st _).mpr
      (List.mem_filter.mpr ⟨hmem, List.elem_iff.mpr hall⟩)

theorem allowedStatesFor_pending_review :
    allowedStatesFor Mode.available (some ⟨some PENDING_REVIEW⟩) =
      Except.ok [PENDING_CORRECTION, COMPLETE] := rfl

theorem allowedStatesFor_complete :
    allowedStatesFor Mode.available (some ⟨some COMPLETE⟩) =
      Except.ok [] := rfl

/-- C6: in available-only mode the workflow choice set offered by
`make_form` is exactly the transition table's successors of the
entity's current state: pending-review offers pending-correction and
complete; an entity with no prior state (absent entity, or entity
without a state row) defaults to pending-entry's successors, namely
pending-review only; a complete entity offers the empty set (the
sub-form is omitted).  In all mode every one of the four states is
offered.  The session is assumed to store exactly the four workflow
state rows (in any order, with any titles). -/
theorem make_form_workflow_choice_sets (sess : Session)
    (hstates : List.Perm (sess.states.map (fun st => st.name))
      [PENDING_ENTRY, PENDING_REVIEW, PENDING_CORRECTION, COMPLETE]) :
    (∃ l, makeFormWorkflowStates sess Mode.available
        (some ⟨some PENDING_REVIEW⟩) = Except.ok l ∧
      ∀ s, s ∈ l ↔ (s = PENDING_CORRECTION ∨ s = COMPLETE)) ∧
    (∀ ent, (ent = Option.none ∨ ent = some ⟨Option.none⟩) →
      ∃ l, makeFormWorkflowStates sess Mode.available ent = Except.ok l ∧
        ∀ s, s ∈ l ↔ s = PENDING_REVIEW) ∧
    (makeFormWorkflowStates sess Mode.available
      (some ⟨some COMPLETE⟩) = Except.ok []) ∧
    (∀ ent, ∃ l, makeFormWorkflowStates sess Mode.all ent = Except.ok l ∧
      ∀ s, s ∈ l ↔ (s = PENDING_ENTRY ∨ s = PENDING_REVIEW ∨
        s = PENDING_CORRECTION ∨ s = COMPLETE)) := by
  have hname : ∀ s : String, (∃ st ∈ sess.states, st.name = s) ↔
      (s = PENDING_ENTRY ∨ s = PENDING_REVIEW ∨
        s = PENDING_CORRECTION ∨ s = COMPLETE) := by
    intro s
    have hm : s ∈ sess.states.map (fun st => st.name) ↔
        s ∈ [PENDING_ENTRY, PENDING_REVIEW, PENDING_CORRECTION, COMPLETE] :=
      hstates.mem_iff
    simpa [List.mem_map, eq_comm] using hm
  have hninj : ∀ s : String,
      (s = PENDING_ENTRY ∨ s = PENDING_REVIEW ∨
        s = PENDING_CORRECTION ∨ s = COMPLETE) → s ≠ "" := by
    rintro s (rfl | rfl | rfl | rfl) <;> decide
  refine ⟨?_, ?_, ?_, ?_⟩
  · refine ⟨_, by rw [makeFormWorkflowStates, allowedStatesFor_pending_review], ?_⟩
    intro s
    rw [offeredOf_mem sess _ (by decide) s, hname]
    constructor
    · rintro ⟨hfour, hmem, hne⟩
      simpa using hmem
    · rintro (rfl | rfl)
      · exact ⟨Or.inr (Or.inr (Or.inl rfl)), by decide, by decide⟩
      · exact ⟨Or.inr (Or.inr (Or.inr rfl)), by decide, by decide⟩
  · rintro ent (rfl | rfl)
    all_goals refine ⟨_, by rw [makeFormWorkflowStates]; rfl, ?_⟩
    all_goals intro s
    all_goals rw [offeredOf_mem sess _ (by decide) s, hname]
    all_goals constructor
    · rintro ⟨hfour, hmem, hne⟩
      simpa using hmem
    · rintro rfl
      exact ⟨Or.inr (Or.inl rfl), by decide, by decide⟩
    · rintro ⟨hfour, hmem, hne⟩
      simpa using hmem
    · rintro rfl
      exact ⟨Or.inr (Or.inl rfl), by decide, by decide⟩
  · rw [makeFormWorkflowStates, allowedStatesFor_complete]
    rfl
  · intro ent
    refine ⟨_, by rw [makeFormWorkflowStates]; rfl, ?_⟩
    intro s
    rw [offeredOf_mem sess _ (by decide) s, hname]
    constructor
    · rintro ⟨hfour, hmem, hne⟩
      exact hfour
    · intro hfour
      refine ⟨hfour, ?_, hninj s hfour⟩
      rcases hfour with rfl | rfl | rfl | rfl <;> decide

/-- Witness for C6 at a concrete session: a complete entity is offered
no workflow transition at all. -/
theorem make_form_workflow_choice_sets_witness :
    makeFormWorkflowStates sessFourStates Mode.available
      (some ⟨some COMPLETE⟩) = Except.ok [] :=
  (make_form_workflow_choice_sets sessFourStates (by decide)).2.2.1

theorem nodup_filtered_publish_dates (l : List Schema) (nm : String)
    (pred : Schema → Bool) (hpred : ∀ s, pred s = true → s.name = nm)
    (h : (l.map (fun s => (s.name, s.publish_date))).Nodup) :
    ((l.filter pred).map (fun s => s.publish_date)).Nodup := by
  induction l with
  | nil => simp
  | cons s t ih =>
    rcases List.nodup_cons.mp h with ⟨hs, ht⟩
    by_cases hp : pred s = true
    · have hf : List.filter pred (s :: t) = s :: List.filter pred t :=
        List.filter_cons_of_pos hp
      rw [hf, List.map_cons]
      refine List.nodup_cons.mpr ⟨?_, ih ht⟩
      intro hmem
      rcases List.mem_map.mp hmem with ⟨s', hs', hpd⟩
      rcases List.mem_filter.mp hs' with ⟨hmem', hp'⟩
      refine hs ?_
      refine List.mem_map.mpr ⟨s', hmem', ?_⟩
      show (s'.name, s'.publish_date) = (s.name, s.publish_date)
      rw [hpred s hp, hpred s' hp', hpd]
    · have hf : List.filter pred (s :: t) = List.filter pred t :=
        List.filter_cons_of_neg (by simpa using hp)
      rw [hf]
      exact ih ht

/-- C8: the resolved version-selector names are exactly the
non-retracted stored versions of the schema's name that were requested
(the caller-supplied allowed list or the current schema's own publish
date), in ascending order without duplicates, and a retracted stored
version never appears even when explicitly requested.  The length
mismatch between requested and resolved sets only sets the logged-warn
flag; the resolved choices are returned either way (the function is
total). -/
theorem computeVersionChoices_spec (sess : Session) (schema : Schema)
    (allowed_versions : Option (List String))
    (hnodup : (sess.schemas.map (fun s => (s.name, s.publish_date))).Nodup) :
    (∀ v, v ∈ versionChoiceNames sess schema allowed_versions ↔
      ((v ∈ allowed_versions.getD [] ∨ v = schema.publish_date) ∧
        ∃ s ∈ sess.schemas, s.name = schema.name ∧ s.publish_date = v ∧
          s.retract_date = Option.none)) ∧
    (versionChoiceNames sess schema allowed_versions).Pairwise
      (fun a b => a ≤ b) ∧
    (versionChoiceNames sess schema allowed_versions).Nodup ∧
    (∀ s ∈ sess.schemas, s.name = schema.name →
      s.retract_date ≠ Option.none →
      s.publish_date ∉ versionChoiceNames sess schema allowed_versions) := by
  have hnames : versionChoiceNames sess schema allowed_versions =
      sortAsc ((sess.schemas.filter (fun s =>
        s.name == schema.name &&
          (sortAsc (((match allowed_versions with
            | Option.none => []
            | some l => if l.isEmpty then [] else l) ++
              [schema.publish_date]).dedup)).contains s.publish_date &&
          s.retract_date == Option.none)).map (fun s => s.publish_date)) := by
    simp only [versionChoiceNames, computeVersionChoices, List.map_map]
    exact List.map_id' _
  have hav0 : ∀ v, (v ∈ (match allowed_versions with
      | Option.none => ([] : List String)
      | some l => if l.isEmpty then [] else l)) ↔
      v ∈ allowed_versions.getD [] := by
    intro v
    rcases allowed_versions with _ | l
    · simp
    · cases l <;> simp
  have hmem : ∀ v, v ∈ versionChoiceNames sess schema allowed_versions ↔
      ((v ∈ allowed_versions.getD [] ∨ v = schema.publish_date) ∧
        ∃ s ∈ sess.schemas, s.name = schema.name ∧ s.publish_date = v ∧
          s.retract_date = Option.none) := by
    intro v
    rw [hnames, mem_sortAsc]
    constructor
    · intro hv
      rcases List.mem_map.mp hv with ⟨s, hsmem, rfl⟩
      rcases List.mem_filter.mp hsmem with ⟨hmem', hpred⟩
      rcases (Bool.and_eq_true _ _).mp hpred with ⟨hp1, hretr⟩
      rcases (Bool.and_eq_true _ _).mp hp1 with ⟨hnm, hcont⟩
      have hreq : s.publish_date ∈ allowed_versions.getD [] ∨
          s.publish_date = schema.publish_date := by
        have := List.elem_iff.mp hcont
        rw [mem_sortAsc, List.mem_dedup, List.mem_append] at this
        rcases this with h | h
        · exact Or.inl ((hav0 _).mp h)
        · exact Or.inr (by simpa using h)
      exact ⟨hreq, s, hmem', beq_iff_eq.mp hnm, rfl, beq_iff_eq.mp hretr⟩
    · rintro ⟨hreq, s, hmem', hnm, rfl, hretr⟩
      refine List.mem_map.mpr ⟨s, ?_, rfl⟩
      refine List.mem_filter.mpr ⟨hmem', ?_⟩
      refine (Bool.and_eq_true _ _).mpr ⟨(Bool.and_eq_true _ _).mpr
        ⟨beq_iff_eq.mpr hnm, ?_⟩, beq_iff_eq.mpr hretr⟩
      refine List.elem_iff.mpr ?_
      rw [mem_sortAsc, List.mem_dedup, List.mem_append]
      rcases hreq with h | h
      · exact Or.inl ((hav0 _).mpr h)
      · exact Or.inr (by simpa using h)
  refine ⟨hmem, ?_, ?_, ?_⟩
  · rw [hnames]
    exact sorted_sortAsc _
  · rw [hnames]
    refine nodup_sortAsc _ (nodup_filtered_publish_dates sess.schemas
      schema.name _ ?_ hnodup)
    intro s hp
    rcases (Bool.and_eq_true _ _).mp hp with ⟨hp1, _⟩
    rcases (Bool.and_eq_true _ _).mp hp1 with ⟨hnm, _⟩
    exact beq_iff_eq.mp hnm
  · intro s hsmem hname hretr hv
    rcases ((hmem s.publish_date).mp hv).2 with ⟨s', hs'mem, hn', hpd', hr'⟩
    have : s = s' := by
      have hinj := List.inj_on_of_nodup_map hnodup
      exact hinj hsmem hs'mem (by
        show (s.name, s.publish_date) = (s'.name, s'.publish_date)
        rw [hname, hn', hpd'])
    rw [this] at hretr
    exact hretr hr'

/-! ## General lemmas about the apply loop -/

/-- A witness schema/version row and witness helpers used across the
apply-data claims. -/
theorem stateLookupOne_name (sess : Session) (n : String) (st : StateRow)
    (h : stateLookupOne sess n = Except.ok st) : st.name = n := by
  rcases hfil : sess.states.filter (fun r => r.name == n) with _ | ⟨st', rest⟩
  · rw [stateLookupOne, hfil] at h
    simp at h
  · rcases rest with _ | ⟨st2, rest2⟩
    · rw [stateLookupOne, hfil] at h
      simp only [Except.ok.injEq] at h
      rw [← h]
      have hmem : st' ∈ sess.states.filter (fun r => r.name == n) := by
        rw [hfil]
        exact List.mem_singleton_self st'
      exact beq_iff_eq.mp (List.mem_filter.mp hmem).2
    · rw [stateLookupOne, hfil] at h
      simp at h

/-- The apply loop touches only the entity's values: state, not_done,
collect_date and schema pass through unchanged. -/
theorem applyLeafs_meta (env : Env) (up : String) (clear : Bool)
    (leafs : List Attribute) (e : Entity) (dv : DataVar) (k : Nat)
    (e' : Entity) (h : applyLeafs env up clear leafs e dv k = Except.ok e') :
    e'.state = e.state ∧ e'.not_done = e.not_done ∧
    e'.collect_date = e.collect_date ∧ e'.schema = e.schema := by
  induction leafs generalizing e dv k with
  | nil =>
    rw [applyLeafs] at h
    simp only [Except.ok.injEq] at h
    subst h
    exact ⟨rfl, rfl, rfl, rfl⟩
  | cons a rest ih =>
    rw [applyLeafs] at h
    repeat' split at h
    all_goals first
      | (have hres := ih _ _ _ h; exact hres)
      | simp at h

/-- In clear mode every leaf name is written to empty and nothing else
is written. -/
theorem applyLeafs_clear (env : Env) (up : String)
    (leafs : List Attribute) (e : Entity) (dv : DataVar) (k : Nat)
    (e' : Entity) (h : applyLeafs env up true leafs e dv k = Except.ok e')
    (n : String) :
    getValue e' n =
      if leafs.any (fun a => a.name == n) then Value.none else getValue e n := by
  induction leafs generalizing e dv k with
  | nil =>
    rw [applyLeafs] at h
    simp only [Except.ok.injEq] at h
    subst h
    simp
  | cons a rest ih =>
    rw [applyLeafs] at h
    rw [if_pos rfl] at h
    have hrec := ih _ _ _ h
    by_cases hn : a.name = n
    · subst hn
      simp only [List.any_cons, beq_self_eq_true, Bool.true_or, if_true]
      rw [hrec]
      by_cases hr : rest.any (fun b => b.name == a.name)
      · simp [hr]
      · simp only [Bool.not_eq_true] at hr
        rw [hr]
        simp [getValue, entitySet, lookupA_setA_self]
    · have hb : (a.name == n) = false := beq_eq_false_iff_ne.mpr hn
      simp only [List.any_cons, hb, Bool.false_or]
      rw [hrec]
      by_cases hr : rest.any (fun b => b.name == n)
      · simp [hr]
      · simp only [Bool.not_eq_true] at hr
        rw [hr]
        simp [getValue, entitySet, lookupA_setA_ne _ _ _ _ (fun hc => hn hc.symm)]

/-- A name no leaf carries is never written by the apply loop. -/
theorem applyLeafs_not_touched (env : Env) (up : String) (clear : Bool)
    (leafs : List Attribute) (e : Entity) (dv : DataVar) (k : Nat)
    (e' : Entity) (n : String)
    (h : applyLeafs env up clear leafs e dv k = Except.ok e')
    (hn : ∀ a ∈ leafs, a.name ≠ n) :
    getValue e' n = getValue e n := by
  induction leafs generalizing e dv k with
  | nil =>
    rw [applyLeafs] at h
    simp only [Except.ok.injEq] at h
    subst h
    rfl
  | cons a rest ih =>
    have hhd : a.name ≠ n := hn a (List.mem_cons_self a rest)
    have htl : ∀ b ∈ rest, b.name ≠ n := fun b hb => hn b (List.mem_cons_of_mem a hb)
    have hset : ∀ v, getValue (entitySet e a.name v) n = getValue e n := by
      intro v
      simp [getValue, entitySet, lookupA_setA_ne _ _ _ _ (fun hc => hhd hc.symm)]
    rw [applyLeafs] at h
    repeat' split at h
    all_goals first
      | (rw [ih _ _ _ h htl]; try exact hset _)
      | simp at h

/-! ## Claim C3: complete entities are read-only for content -/

/-- C3: when the entity's previous state is complete, `apply_data`
returns without touching `not_done`, `collect_date`, the schema version
or any leaf value — the entity comes back changed at most in its state,
which is reassigned to the submitted next state (the default
pending-review when no workflow block is present) before the read-only
check. -/
theorem apply_data_complete_readonly (sess : Session) (env : Env)
    (e : Entity) (d : Record) (up : String)
    (hprev : e.state = some COMPLETE)
    (hok : nextStateOf d = COMPLETE ∨
      ∃ st, stateLookupOne sess (nextStateOf d) = Except.ok st) :
    apply_data sess env e d up =
      Except.ok { e with state := some (nextStateOf d) } := by
  by_cases heq : e.state = some (nextStateOf d)
  · have hb : (e.state == some (nextStateOf d)) = true := beq_iff_eq.mpr heq
    have hc : (e.state == some COMPLETE) = true := beq_iff_eq.mpr hprev
    rw [apply_data]
    simp only [hb, if_true, hc]
    have : e = { e with state := some (nextStateOf d) } := by
      cases e
      simp only [Entity.mk.injEq, and_true, true_and]
      rw [← heq]
    rw [← this]
  · have hb : (e.state == some (nextStateOf d)) = false := by
      simpa using heq
    have hnext : nextStateOf d ≠ COMPLETE := by
      intro hcontra
      rw [hcontra] at heq
      exact heq hprev
    rcases hok with hcomp | ⟨st, hst⟩
    · exact absurd hcomp hnext
    · have hname := stateLookupOne_name sess (nextStateOf d) st hst
      have hc : (e.state == some COMPLETE) = true := beq_iff_eq.mpr hprev
      rw [apply_data]
      simp only [hb, Bool.false_eq_true, if_false, hst, hc, if_true]
      rw [hname]

/-- Witness for C3: a complete entity given a record submitting a
different value for `q` and a pending-review transition keeps its
value, metadata and schema, and only the state is reassigned. -/
theorem apply_data_complete_readonly_witness :
    apply_data sessFourStates { fresh_paths := fun _ => "gen", mime_of := fun _ => "mime" }
      completeEntity
      { ofworkflow_ := some "pending-review",
        fields := [("q", Entry.leaf (Value.str "changed"))] } "up" =
      Except.ok { completeEntity with state := some "pending-review" } := by
  exact apply_data_complete_readonly _ _ _ _ _ rfl
    (Or.inr ⟨⟨"pending-review", "Review pending"⟩, rfl⟩)

/-! ## Claim C4: clearing semantics -/

theorem applyLeafs_clear_all (env : Env) (up : String)
    (leafs : List Attribute) (e : Entity) (dv : DataVar) (k : Nat)
    (e' : Entity) (h : applyLeafs env up true leafs e dv k = Except.ok e') :
    ∀ a ∈ leafs, getValue e' a.name = Value.none := by
  intro a ha
  rw [applyLeafs_clear env up leafs e dv k e' h a.name]
  have : leafs.any (fun b => b.name == a.name) = true :=
    List.any_eq_true.mpr ⟨a, ha, beq_self_eq_true a.name⟩
  rw [this]
  simp

/-- The common tail of `apply_data` after the metadata step: whatever
entity `e2` the metadata step produced, a truthy resulting `not_done`
or a pending-entry next state clears every leaf. -/
theorem apply_data_tail_spec (env : Env) (up : String) (d : Record)
    (e2 e' : Entity)
    (h : applyLeafs env up (e2.not_done || (nextStateOf d == PENDING_ENTRY))
      e2.schema.leafs e2 (DataVar.record d) 0 = Except.ok e') :
    ((e'.not_done = true ∨ nextStateOf d = PENDING_ENTRY) →
      ∀ a ∈ e'.schema.leafs, getValue e' a.name = Value.none) ∧
    e'.not_done = e2.not_done ∧ e'.schema = e2.schema := by
  have hmeta := applyLeafs_meta env up _ _ _ _ _ _ h
  refine ⟨?_, hmeta.2.1, hmeta.2.2.2⟩
  intro hcl a ha
  have hclear : (e2.not_done || (nextStateOf d == PENDING_ENTRY)) = true := by
    rcases hcl with hnd | hpe
    · rw [hmeta.2.1] at hnd
      rw [hnd]
      simp
    · rw [hpe]
      simp
  rw [hclear] at h
  refine applyLeafs_clear_all env up _ e2 _ 0 e' h a ?_
  rw [← hmeta.2.2.2]
  exact ha

/-- C4 (amended): for an entity whose previous state is not complete,
whenever the resulting `not_done` flag is true or the next state is
pending-entry, `apply_data` empties every leaf of the (possibly
re-bound) schema regardless of the submitted values; and when
transitioning into pending-entry with a metadata block present in the
record, the stored `not_done` flag is forced to false.  (Without a
metadata block the flag is left untouched, and a previously complete
entity returns before any clearing — see the counterexample.) -/
theorem apply_data_clearing (sess : Session) (env : Env) (e : Entity)
    (d : Record) (up : String) (e' : Entity)
    (hprev : e.state ≠ some COMPLETE)
    (h : apply_data sess env e d up = Except.ok e') :
    ((e'.not_done = true ∨ nextStateOf d = PENDING_ENTRY) →
      ∀ a ∈ e'.schema.leafs, getValue e' a.name = Value.none) ∧
    (nextStateOf d = PENDING_ENTRY → d.ofmetadata_.isSome = true →
      e'.not_done = false) := by
  rw [apply_data] at h
  have hcbeq : (e.state == some COMPLETE) = false := by simpa using hprev
  by_cases hbeq : (e.state == some (nextStateOf d)) = true
  · rw [if_pos hbeq] at h
    simp only [hcbeq, Bool.false_eq_true, if_false] at h
    rcases hd : d.ofmetadata_ with _ | md
    · rw [hd] at h
      obtain ⟨h1, hnd, hsch⟩ := apply_data_tail_spec env up d e e' h
      refine ⟨h1, ?_⟩
      intro hpe hsome
      simp at hsome
    · rw [hd] at h
      dsimp only at h
      rcases hsl : schemaLookupOne sess e.schema.name md.version with err | s'
      · rw [hsl] at h
        simp at h
      · rw [hsl] at h
        obtain ⟨h1, hnd, hsch⟩ := apply_data_tail_spec env up d _ e' h
        refine ⟨h1, ?_⟩
        intro hpe hsome
        rw [hnd]
        have hb : (nextStateOf d == PENDING_ENTRY) = true := beq_iff_eq.mpr hpe
        simp [hb]
  · rw [if_neg hbeq] at h
    rcases hst : stateLookupOne sess (nextStateOf d) with err | st
    · rw [hst] at h
      simp at h
    · rw [hst] at h
      simp only [hcbeq, Bool.false_eq_true, if_false] at h
      rcases hd : d.ofmetadata_ with _ | md
      · rw [hd] at h
        obtain ⟨h1, hnd, hsch⟩ := apply_data_tail_spec env up d _ e' h
        refine ⟨h1, ?_⟩
        intro hpe hsome
        simp at hsome
      · rw [hd] at h
        dsimp only at h
        rcases hsl : schemaLookupOne sess e.schema.name md.version with err | s'
        · rw [hsl] at h
          simp at h
        · rw [hsl] at h
          obtain ⟨h1, hnd, hsch⟩ := apply_data_tail_spec env up d _ e' h
          refine ⟨h1, ?_⟩
          intro hpe hsome
          rw [hnd]
          have hb : (nextStateOf d == PENDING_ENTRY) = true := beq_iff_eq.mpr hpe
          simp [hb]

/-- Counterexample to C4 as stated.  Run A: an entity whose previous
state is complete comes out of `apply_data` with `not_done = true` yet
its leaf still holds its old value — a truthy resulting `not_done` does
not imply clearing when the entity was complete.  Run B: a transition
into pending-entry without a metadata block leaves `not_done` at true —
the flag is only forced to false inside the metadata branch. -/
theorem apply_data_clearing_counterexample :
    apply_data sessFourStates env0 entityA
        { ofworkflow_ := some "pending-review" } "up" =
      Except.ok { entityA with state := some "pending-review" } ∧
    ({ entityA with state := some "pending-review" } : Entity).not_done = true ∧
    getValue { entityA with state := some "pending-review" } "q" =
      Value.str "kept" ∧
    Value.str "kept" ≠ Value.none ∧
    nextStateOf { ofworkflow_ := some "pending-entry" } = PENDING_ENTRY ∧
    apply_data sessFourStates env0 entityB
        { ofworkflow_ := some "pending-entry" } "up" =
      Except.ok { entityB with
                  state := some "pending-entry",
                  values := [("q", Value.none)] } ∧
    ({ entityB with
       state := some "pending-entry",
       values := [("q", Value.none)] } : Entity).not_done = true := by
  refine ⟨rfl, rfl, rfl, by decide, rfl, rfl, rfl⟩

/-- Witness for C4 (amended) at a concrete run: a pending-review entity
moved to pending-entry with a metadata block gets its leaf emptied
(despite a submitted value) and its `not_done` forced to false. -/
theorem apply_data_clearing_witness :
    getValue resultW "q" = Value.none ∧ resultW.not_done = false := by
  have h := apply_data_clearing sessW env0 entityW recordW "up" resultW
    (by decide) rfl
  exact ⟨h.1 (Or.inr rfl) ⟨"q", "", "", AttrType.stringT, false, false,
    Option.none, Option.none, Option.none, Option.none, Option.none, [],
    Option.none⟩ (by decide), h.2 rfl rfl⟩

/-- Witness for C8 at a concrete store: the retracted version
2014-06-01 is absent from the resolved choice set even though it was
explicitly requested. -/
theorem computeVersionChoices_spec_witness :
    "2014-06-01" ∉
      versionChoiceNames sessVersions schemaV1
        (some ["2014-06-01", "2014-01-01"]) := by
  have h := (computeVersionChoices_spec sessVersions schemaV1
    (some ["2014-06-01", "2014-01-01"]) (by decide)).2.2.2
    schemaV2r (by decide) rfl (by decide)
  exact h

theorem lookupA_mem {α : Type} (l : List (String × α)) (n : String) (v : α)
    (h : lookupA l n = some v) : (n, v) ∈ l := by
  induction l with
  | nil => simp [lookupA] at h
  | cons hd t ih =>
    obtain ⟨k, w⟩ := hd
    by_cases hk : k = n
    · subst hk
      rw [lookupA, if_pos rfl] at h
      simp only [Option.some.injEq] at h
      subst h
      exact List.mem_cons_self _ _
    · rw [lookupA, if_neg hk] at h
      exact List.mem_cons_of_mem _ (ih h)

/-- A leaf whose key the record omits is never written by the apply
loop (in non-clear mode, over a record with no top-level uploads). -/
theorem applyLeafs_skip (env : Env) (up : String) (leafs : List Attribute)
    (e : Entity) (d : Record) (k : Nat) (e' : Entity) (a : Attribute)
    (hnoup : recNoTopUpload d) (hskip : skipCond d a)
    (h : applyLeafs env up false leafs e (DataVar.record d) k = Except.ok e')
    (hnd : (leafs.map (fun b => b.name)).Nodup) (ha : a ∈ leafs) :
    getValue e' a.name = getValue e a.name := by
  revert h hnd ha
  induction leafs generalizing e k with
  | nil =>
    intro h hnd ha
    simp at ha
  | cons b rest ih =>
    intro h hnd ha
    rw [applyLeafs] at h
    simp only [Bool.false_eq_true, if_false] at h
    have hnd' := hnd
    rw [List.map_cons] at hnd'
    rcases List.nodup_cons.mp hnd' with ⟨hbn, hndr⟩
    rcases List.mem_cons.mp ha with rfl | har
    · -- the leaf itself is at the head: its key is absent, so it is
      -- skipped and the tail cannot write its (nodup) name
      have hnotin : ∀ c ∈ rest, c.name ≠ a.name := by
        intro c hc hcn
        exact hbn (List.mem_map.mpr ⟨c, hc, hcn⟩)
      rcases hp : a.parent_attribute with _ | p
      · have hpo : parentOf (DataVar.record d) a = Except.ok (ParentView.whole d) := by
          simp only [parentOf, hp]
        rw [hpo] at h
        dsimp only at h
        have hskip' : recMem d a.name = false := by
          rw [skipCond, hp] at hskip
          exact hskip
        have hpm : parentMem (ParentView.whole d) a.name = false := hskip'
        simp only [hpm, Bool.not_false, if_true] at h
        exact applyLeafs_not_touched env up false rest e _ k e' a.name h hnotin
      · rw [skipCond, hp] at hskip
        rcases hskip with ⟨m, hm, hnone⟩
        have hpo : parentOf (DataVar.record d) a = Except.ok (ParentView.dict m) := by
          simp only [parentOf, hp, hm]
        rw [hpo] at h
        dsimp only at h
        have hpm : parentMem (ParentView.dict m) a.name = false := by
          rw [parentMem, hnone]
          rfl
        simp only [hpm, Bool.not_false, if_true] at h
        exact applyLeafs_not_touched env up false rest e _ k e' a.name h hnotin
    · -- the leaf is in the tail: the head writes only its own distinct
      -- name and, having no top-level upload, never rebinds `data`
      have hban : b.name ≠ a.name := by
        intro hcontra
        exact hbn (List.mem_map.mpr ⟨a, har, hcontra.symm⟩)
      have hset : ∀ v, getValue (entitySet e b.name v) a.name = getValue e a.name := by
        intro v
        simp [getValue, entitySet, lookupA_setA_ne _ _ _ _ hban.symm]
      repeat' split at h
      all_goals first
        | simp at h
        | (rw [ih _ _ h hndr har]; try exact hset _)
        | skip
      -- remaining: the blob upload branch, impossible without a
      -- top-level upload entry
      case _ filename chunks heq =>
        rcases hdx : lookupA d.fields b.name with _ | en
        · rw [dataIndex, hdx] at heq
          simp at heq
        · rw [dataIndex, hdx] at heq
          simp only [Except.ok.injEq] at heq
          have := hnoup (b.name, en) (lookupA_mem _ _ _ hdx)
          rw [heq] at this
          simp [Entry.isUploadFile] at this

/-- C5 (amended): when the resulting `not_done` is false and the next
state is not pending-entry (so data is not cleared), a successful
`apply_data` leaves unchanged every leaf whose key the record omits —
a top-level leaf absent from the record, or a leaf absent from its
parent section's present mapping.  (A wholly absent section key makes
`apply_data` fail with a key lookup error instead of skipping — see the
counterexample; records carrying a top-level upload stream are excluded
here, see C9.) -/
theorem apply_data_patch_skip (sess : Session) (env : Env) (e : Entity)
    (d : Record) (up : String) (e' : Entity) (a : Attribute)
    (hprev : e.state ≠ some COMPLETE)
    (h : apply_data sess env e d up = Except.ok e')
    (hnd_flag : e'.not_done = false)
    (hnext : nextStateOf d ≠ PENDING_ENTRY)
    (hnodup : (e'.schema.leafs.map (fun b => b.name)).Nodup)
    (hnoup : recNoTopUpload d)
    (ha : a ∈ e'.schema.leafs)
    (hskip : skipCond d a) :
    getValue e' a.name = getValue e a.name := by
  rw [apply_data] at h
  have hcbeq : (e.state == some COMPLETE) = false := by simpa using hprev
  have hpe : (nextStateOf d == PENDING_ENTRY) = false := by simpa using hnext
  by_cases hbeq : (e.state == some (nextStateOf d)) = true
  · rw [if_pos hbeq] at h
    simp only [hcbeq, Bool.false_eq_true, if_false] at h
    rcases hd : d.ofmetadata_ with _ | md
    · rw [hd] at h
      dsimp only at h
      have hm := applyLeafs_meta _ _ _ _ _ _ _ _ h
      try dsimp only at hm
      have hend : e.not_done = false := by rw [← hm.2.1]; exact hnd_flag
      rw [hend, hpe] at h
      simp only [Bool.or_false] at h
      have hv := applyLeafs_skip env up _ _ d 0 e' a hnoup hskip h
        (by rw [← hm.2.2.2]; exact hnodup) (by rw [← hm.2.2.2]; exact ha)
      exact hv
    · rw [hd] at h
      dsimp only at h
      rcases hsl : schemaLookupOne sess e.schema.name md.version with err | s'
      · rw [hsl] at h
        simp at h
      · rw [hsl] at h
        dsimp only at h
        rw [hpe] at h
        simp only [Bool.false_eq_true, if_false, Bool.or_false] at h
        have hm := applyLeafs_meta _ _ _ _ _ _ _ _ h
        try dsimp only at hm
        have hend : md.not_done = false := by rw [← hm.2.1]; exact hnd_flag
        rw [hend] at h
        have hv := applyLeafs_skip env up _ _ d 0 e' a hnoup hskip h
          (by rw [← hm.2.2.2]; exact hnodup) (by rw [← hm.2.2.2]; exact ha)
        exact hv
  · rw [if_neg hbeq] at h
    rcases hst : stateLookupOne sess (nextStateOf d) with err | st
    · rw [hst] at h
      simp at h
    · rw [hst] at h
      simp only [hcbeq, Bool.false_eq_true, if_false] at h
      rcases hd : d.ofmetadata_ with _ | md
      · rw [hd] at h
        dsimp only at h
        have hm := applyLeafs_meta _ _ _ _ _ _ _ _ h
        try dsimp only at hm
        have hend : e.not_done = false := by rw [← hm.2.1]; exact hnd_flag
        rw [hend, hpe] at h
        simp only [Bool.or_false] at h
        have hv := applyLeafs_skip env up _ _ d 0 e' a hnoup hskip h
          (by rw [← hm.2.2.2]; exact hnodup) (by rw [← hm.2.2.2]; exact ha)
        exact hv
      · rw [hd] at h
        dsimp only at h
        rcases hsl : schemaLookupOne sess e.schema.name md.version with err | s'
        · rw [hsl] at h
          simp at h
        · rw [hsl] at h
          dsimp only at h
          rw [hpe] at h
          simp only [Bool.false_eq_true, if_false, Bool.or_false] at h
          have hm := applyLeafs_meta _ _ _ _ _ _ _ _ h
          try dsimp only at hm
          have hend : md.not_done = false := by rw [← hm.2.1]; exact hnd_flag
          rw [hend] at h
          have hv := applyLeafs_skip env up _ _ d 0 e' a hnoup hskip h
            (by rw [← hm.2.2.2]; exact hnodup) (by rw [← hm.2.2.2]; exact ha)
          exact hv

/-- Counterexample to C5 as stated: with `clear_data` false, a record
that omits the entire section key `s` makes `apply_data` raise
`KeyError` (line 558 indexes `data[parent_name]` unguarded) instead of
skipping the nested leaf. -/
theorem apply_data_patch_skip_counterexample :
    apply_data {} env0 entityNested { ofworkflow_ := some "pending-review" }
      "up" = Except.error PyError.keyError ∧
    entityNested.not_done = false ∧
    nextStateOf { ofworkflow_ := some "pending-review" } ≠ PENDING_ENTRY := by
  refine ⟨rfl, rfl, by decide⟩

/-- Witness for C5 (amended): a record updating `q` but omitting `g`
from its present section mapping leaves `g` unchanged while `q` is
updated. -/
theorem apply_data_patch_skip_witness :
    getValue resultC5 "g" = getValue entityC5 "g" := by
  exact apply_data_patch_skip {} env0 entityC5 recordC5 "up" resultC5 gAttr
    (by decide) rfl rfl (by decide) (by decide)
    (by unfold recNoTopUpload; decide) (by decide) ⟨[], rfl, rfl⟩

/-! ## Claim C9: the upload loop rebinds `data` -/

/-- After `data` has been rebound to the (empty) final read chunk,
every remaining top-level leaf with a non-empty name fails the
byte-string membership test and is skipped: the loop returns the
entity unchanged. -/
theorem applyLeafs_bytes_empty (env : Env) (up : String)
    (leafs : List Attribute) (e : Entity) (k : Nat)
    (hl : ∀ b ∈ leafs, b.parent_attribute = Option.none ∧ b.name ≠ "") :
    applyLeafs env up false leafs e (DataVar.bytes "") k = Except.ok e := by
  induction leafs generalizing e k with
  | nil => rw [applyLeafs]
  | cons b rest ih =>
    obtain ⟨hb1, hb2⟩ := hl b (List.mem_cons_self b rest)
    rw [applyLeafs]
    simp only [Bool.false_eq_true, if_false]
    have hpo : parentOf (DataVar.bytes "") b = Except.ok (ParentView.bytesView "") := by
      simp only [parentOf, hb1]
    rw [hpo]
    dsimp only
    have hpm : parentMem (ParentView.bytesView "") b.name = false :=
      bytesContains_empty b.name hb2
    simp only [hpm, Bool.not_false, if_true]
    exact ih e k (fun c hc => hl c (List.mem_cons_of_mem b hc))

/-- After the rebinding, a remaining leaf that lives inside a section
indexes the byte string with its section name and raises `TypeError`. -/
theorem applyLeafs_bytes_nested_error (env : Env) (up : String)
    (b : Attribute) (rest : List Attribute) (e : Entity) (k : Nat)
    (p : String) (hp : b.parent_attribute = some p) :
    applyLeafs env up false (b :: rest) e (DataVar.bytes "") k =
      Except.error PyError.typeError := by
  rw [applyLeafs]
  simp only [Bool.false_eq_true, if_false]
  have hpo : parentOf (DataVar.bytes "") b = Except.error PyError.typeError := by
    simp only [parentOf, hp]
  rw [hpo]

/-- C9: in `apply_data`, processing a blob leaf whose submitted value
is an uploaded file stream stores the attachment descriptor and rebinds
the local `data` variable to the chunks read from the stream (ending as
the empty byte string), so every leaf iterated afterwards indexes into
a byte string rather than the record: subsequent top-level leaves are
silently skipped — their stored values stay unchanged even when the
record submits new values — and a subsequent section-nested leaf makes
the call fail with `TypeError`. -/
theorem apply_data_upload_rebinds_data (sess : Session) (env : Env)
    (e : Entity) (d : Record) (up : String) (a : Attribute)
    (fn : String) (chunks : List String) (rest : List Attribute)
    (hprev : e.state = some PENDING_REVIEW)
    (hwf : d.ofworkflow_ = Option.none)
    (hmeta : d.ofmetadata_ = Option.none)
    (hnd : e.not_done = false)
    (hleafs : e.schema.leafs = a :: rest)
    (hablob : a.type = AttrType.blob)
    (hatop : a.parent_attribute = Option.none)
    (hlookup : lookupA d.fields a.name = some (Entry.leaf (Value.file fn chunks))) :
    ((∀ b ∈ rest, b.parent_attribute = Option.none ∧ b.name ≠ "") →
      apply_data sess env e d up = Except.ok (entitySet e a.name
        (Value.blob ⟨basename fn, up ++ "/" ++ env.fresh_paths 0,
          env.mime_of (up ++ "/" ++ env.fresh_paths 0)⟩)) ∧
      (∀ b ∈ rest, b.name ≠ a.name →
        getValue (entitySet e a.name
          (Value.blob ⟨basename fn, up ++ "/" ++ env.fresh_paths 0,
            env.mime_of (up ++ "/" ++ env.fresh_paths 0)⟩)) b.name =
          getValue e b.name)) ∧
    (∀ b brest p, rest = b :: brest → b.parent_attribute = some p →
      apply_data sess env e d up = Except.error PyError.typeError) := by
  have hns : nextStateOf d = PENDING_REVIEW := by rw [nextStateOf, hwf]
  have hb1 : (e.state == some (nextStateOf d)) = true :=
    beq_iff_eq.mpr (by rw [hns, hprev])
  have hb2 : (e.state == some COMPLETE) = false := by
    rw [hprev]
    decide
  have hpe : (PENDING_REVIEW == PENDING_ENTRY) = false := by decide
  have hmem : parentMem (ParentView.whole d) a.name = true := by
    show recMem d a.name = true
    rw [recMem, hlookup]
    simp
  have happ : apply_data sess env e d up =
      applyLeafs env up false rest
        (entitySet e a.name (Value.blob ⟨basename fn,
          up ++ "/" ++ env.fresh_paths 0,
          env.mime_of (up ++ "/" ++ env.fresh_paths 0)⟩))
        (DataVar.bytes "") 1 := by
    have hb1' : (e.state == some PENDING_REVIEW) = true := beq_iff_eq.mpr hprev
    simp only [apply_data, hns, hb1', if_true, hb2, Bool.false_eq_true,
      if_false, hmeta, hnd, hpe, Bool.or_false, hleafs]
    rw [applyLeafs]
    simp only [Bool.false_eq_true, if_false]
    have hpo : parentOf (DataVar.record d) a = Except.ok (ParentView.whole d) := by
      simp only [parentOf, hatop]
    simp only [hpo]
    simp only [hmem, Bool.not_true, Bool.false_eq_true, if_false]
    rw [if_pos hablob]
    have hdx : dataIndex (DataVar.record d) a.name =
        Except.ok (Entry.leaf (Value.file fn chunks)) := by
      rw [dataIndex, hlookup]
    simp only [hdx]
    rw [readLoop_eq_empty]
  constructor
  · intro hrest
    refine ⟨?_, ?_⟩
    · rw [happ]
      exact applyLeafs_bytes_empty env up rest _ 1 hrest
    · intro b hb hbn
      simp [getValue, entitySet, lookupA_setA_ne _ _ _ _ hbn]
  · intro b brest p hrest hp
    rw [happ, hrest]
    exact applyLeafs_bytes_nested_error env up b brest _ 1 p hp

/-- Witness for C9 at a concrete run: the upload is stored for `b1`,
and the following leaf `t1` keeps its old value even though the record
submits a new one. -/
theorem apply_data_upload_rebinds_data_witness :
    apply_data {} env0 entityC9 recordC9 "up" =
      Except.ok (entitySet entityC9 "b1"
        (Value.blob ⟨"orig.txt", "up/gen", "mime"⟩)) ∧
    getValue (entitySet entityC9 "b1"
      (Value.blob ⟨"orig.txt", "up/gen", "mime"⟩)) "t1" = Value.str "old" := by
  have h := (apply_data_upload_rebinds_data {} env0 entityC9 recordC9 "up"
    b1Attr "dir/orig.txt" ["abc", "def"] [t1Attr]
    rfl rfl rfl rfl rfl rfl rfl rfl).1 (by decide)
  have e1 : basename "dir/orig.txt" = "orig.txt" := rfl
  have e3 : env0.mime_of ("up" ++ "/" ++ env0.fresh_paths 0) = "mime" := rfl
  have e2 : ("up" ++ "/" ++ env0.fresh_paths 0 : String) = "up/gen" := rfl
  have en : b1Attr.name = "b1" := rfl
  constructor
  · have h1 := h.1
    rw [en, e1, e3, e2] at h1
    exact h1
  · have h2 := h.2 t1Attr (by decide) (by decide)
    rw [en, e1, e3, e2] at h2
    exact h2

theorem edgood_nil (e : Entity) : EDGood e [] [] := by
  refine ⟨?_, ?_, ?_, ?_⟩
  · intro a ha
    simp at ha
  · intro a ha
    simp at ha
  · intro k en hk
    simp [lookupA] at hk
  · intro k hk
    simp at hk

theorem edgood_step (e : Entity) (all processed : List Attribute)
    (a : Attribute) (rest : List Attribute)
    (fields : List (String × Entry))
    (hsplit : processed ++ a :: rest = all)
    (hnodup : (all.map (fun x => x.name)).Nodup)
    (hpar : ∀ x ∈ all, ∀ y ∈ all, ∀ p, x.parent_attribute = some p → p ≠ y.name)
    (hgood : EDGood e processed fields) :
    ∃ fields', entityDataStep e fields a = Except.ok fields' ∧
      EDGood e (processed ++ [a]) fields' := by
  obtain ⟨g1, g2, g3, g4⟩ := hgood
  have hmidall : a ∈ all := by
    rw [← hsplit]
    exact List.mem_append.mpr (Or.inr (List.mem_cons_self a rest))
  have hpall : ∀ x ∈ processed, x ∈ all := by
    intro x hx
    rw [← hsplit]
    exact List.mem_append.mpr (Or.inl hx)
  have hnd2 : (processed.map (fun x => x.name) ++
      (a.name :: rest.map (fun x => x.name))).Nodup := by
    rw [← List.map_cons, ← List.map_append, hsplit]
    exact hnodup
  rcases List.nodup_append.mp hnd2 with ⟨hndl, hndr, hdisj⟩
  have hfresh : ∀ b ∈ processed, b.name ≠ a.name := by
    intro b hb heq
    have hmemr : b.name ∈ a.name :: rest.map (fun x => x.name) := by
      rw [heq]
      exact List.mem_cons_self _ _
    exact hdisj (List.mem_map.mpr ⟨b, hb, rfl⟩) hmemr
  rcases hp : a.parent_attribute with _ | p
  · -- top-level leaf: write its own key
    refine ⟨setA fields a.name (Entry.leaf (getValue e a.name)),
      by rw [entityDataStep, hp], ?_, ?_, ?_, ?_⟩
    · intro b hb hbp
      rcases List.mem_append.mp hb with hb | hb
      · rw [lookupA_setA_ne _ _ _ _ (hfresh b hb)]
        exact g1 b hb hbp
      · have hba : b = a := List.mem_singleton.mp hb
        rw [hba, lookupA_setA_self]
    · intro b hb q hbq
      rcases List.mem_append.mp hb with hb | hb
      · have hqne : q ≠ a.name := hpar b (hpall b hb) a hmidall q hbq
        obtain ⟨m, hm1, hm2⟩ := g2 b hb q hbq
        exact ⟨m, by rw [lookupA_setA_ne _ _ _ _ hqne]; exact hm1, hm2⟩
      · have hba : b = a := List.mem_singleton.mp hb
        rw [hba, hp] at hbq
        cases hbq
    · intro k en hk
      by_cases hke : k = a.name
      · exact ⟨a, List.mem_append.mpr (Or.inr (List.mem_singleton_self a)),
          Or.inl ⟨hp, hke.symm⟩⟩
      · rw [lookupA_setA_ne _ _ _ _ hke] at hk
        obtain ⟨a', ha', hcase⟩ := g3 k en hk
        exact ⟨a', List.mem_append.mpr (Or.inl ha'), hcase⟩
    · rintro k ⟨b, hb, hbk⟩
      rcases List.mem_append.mp hb with hb | hb
      · have hkne : k ≠ a.name := hpar b (hpall b hb) a hmidall k hbk
        obtain ⟨m, hm⟩ := g4 k ⟨b, hb, hbk⟩
        exact ⟨m, by rw [lookupA_setA_ne _ _ _ _ hkne]; exact hm⟩
      · have hba : b = a := List.mem_singleton.mp hb
        rw [hba, hp] at hbk
        cases hbk
  · -- nested leaf: create or extend the parent's section mapping
    have hpne_top : ∀ b ∈ processed, p ≠ b.name := by
      intro b hb
      exact hpar a hmidall b (hpall b hb) p hp
    rcases hl : lookupA fields p with _ | en
    · -- parent key absent: a fresh singleton mapping
      refine ⟨setA fields p (Entry.sub [(a.name, getValue e a.name)]),
        by simp only [entityDataStep, hp, hl], ?_, ?_, ?_, ?_⟩
      · intro b hb hbp
        rcases List.mem_append.mp hb with hb | hb
        · rw [lookupA_setA_ne _ _ _ _ (Ne.symm (hpne_top b hb))]
          exact g1 b hb hbp
        · have hba : b = a := List.mem_singleton.mp hb
          rw [hba, hp] at hbp
          cases hbp
      · intro b hb q hbq
        rcases List.mem_append.mp hb with hb | hb
        · by_cases hq : q = p
          · subst hq
            obtain ⟨m, hm⟩ := g4 q ⟨b, hb, hbq⟩
            rw [hl] at hm
            cases hm
          · obtain ⟨m, hm1, hm2⟩ := g2 b hb q hbq
            exact ⟨m, by rw [lookupA_setA_ne _ _ _ _ hq]; exact hm1, hm2⟩
        · have hba : b = a := List.mem_singleton.mp hb
          rw [hba] at hbq ⊢
          rw [hp] at hbq
          cases hbq
          refine ⟨[(a.name, getValue e a.name)], lookupA_setA_self _ _ _, ?_⟩
          simp [lookupA]
      · intro k en' hk
        by_cases hke : k = p
        · exact ⟨a, List.mem_append.mpr (Or.inr (List.mem_singleton_self a)),
            Or.inr (hke ▸ hp)⟩
        · rw [lookupA_setA_ne _ _ _ _ hke] at hk
          obtain ⟨a', ha', hcase⟩ := g3 k en' hk
          exact ⟨a', List.mem_append.mpr (Or.inl ha'), hcase⟩
      · rintro k ⟨b, hb, hbk⟩
        by_cases hke : k = p
        · subst hke
          exact ⟨[(a.name, getValue e a.name)], lookupA_setA_self _ _ _⟩
        · rcases List.mem_append.mp hb with hb | hb
          · obtain ⟨m, hm⟩ := g4 k ⟨b, hb, hbk⟩
            exact ⟨m, by rw [lookupA_setA_ne _ _ _ _ hke]; exact hm⟩
          · have hba : b = a := List.mem_singleton.mp hb
            rw [hba, hp] at hbk
            cases hbk
            exact absurd rfl hke
    · rcases en with v | m
      · -- a plain value at the parent key cannot occur
        obtain ⟨a', ha', hcase⟩ := g3 p _ hl
        rcases hcase with ⟨ha'top, hname⟩ | ha'p
        · exact absurd hname.symm (hpar a hmidall a' (hpall a' ha') p hp)
        · obtain ⟨m, hm⟩ := g4 p ⟨a', ha', ha'p⟩
          rw [hl] at hm
          cases hm
      · -- extend the existing section mapping
        refine ⟨setA fields p (Entry.sub (setA m a.name (getValue e a.name))),
          by simp only [entityDataStep, hp, hl], ?_, ?_, ?_, ?_⟩
        · intro b hb hbp
          rcases List.mem_append.mp hb with hb | hb
          · rw [lookupA_setA_ne _ _ _ _ (Ne.symm (hpne_top b hb))]
            exact g1 b hb hbp
          · have hba : b = a := List.mem_singleton.mp hb
            rw [hba, hp] at hbp
            cases hbp
        · intro b hb q hbq
          rcases List.mem_append.mp hb with hb | hb
          · by_cases hq : q = p
            · subst hq
              obtain ⟨m', hm1, hm2⟩ := g2 b hb q hbq
              rw [hl] at hm1
              simp only [Option.some.injEq, Entry.sub.injEq] at hm1
              subst hm1
              refine ⟨setA m a.name (getValue e a.name),
                lookupA_setA_self _ _ _, ?_⟩
              rw [lookupA_setA_ne _ _ _ _ (hfresh b hb)]
              exact hm2
            · obtain ⟨m', hm1, hm2⟩ := g2 b hb q hbq
              exact ⟨m', by rw [lookupA_setA_ne _ _ _ _ hq]; exact hm1, hm2⟩
          · have hba : b = a := List.mem_singleton.mp hb
            rw [hba] at hbq ⊢
            rw [hp] at hbq
            cases hbq
            exact ⟨setA m a.name (getValue e a.name),
              lookupA_setA_self _ _ _, lookupA_setA_self _ _ _⟩
        · intro k en' hk
          by_cases hke : k = p
          · exact ⟨a, List.mem_append.mpr (Or.inr (List.mem_singleton_self a)),
              Or.inr (hke ▸ hp)⟩
          · rw [lookupA_setA_ne _ _ _ _ hke] at hk
            obtain ⟨a', ha', hcase⟩ := g3 k en' hk
            exact ⟨a', List.mem_append.mpr (Or.inl ha'), hcase⟩
        · rintro k ⟨b, hb, hbk⟩
          by_cases hke : k = p
          · subst hke
            exact ⟨setA m a.name (getValue e a.name), lookupA_setA_self _ _ _⟩
          · rcases List.mem_append.mp hb with hb | hb
            · obtain ⟨m', hm⟩ := g4 k ⟨b, hb, hbk⟩
              exact ⟨m', by rw [lookupA_setA_ne _ _ _ _ hke]; exact hm⟩
            · have hba : b = a := List.mem_singleton.mp hb
              rw [hba, hp] at hbk
              cases hbk
              exact absurd rfl hke

theorem entityDataFields_good (e : Entity) (all : List Attribute)
    (hnodup : (all.map (fun x => x.name)).Nodup)
    (hpar : ∀ x ∈ all, ∀ y ∈ all, ∀ p, x.parent_attribute = some p → p ≠ y.name) :
    ∀ remaining processed fields, processed ++ remaining = all →
      EDGood e processed fields →
      ∃ out, entityDataFields e remaining fields = Except.ok out ∧
        EDGood e all out := by
  intro remaining
  induction remaining with
  | nil =>
    intro processed fields hsplit hgood
    refine ⟨fields, by rw [entityDataFields], ?_⟩
    rw [List.append_nil] at hsplit
    exact hsplit ▸ hgood
  | cons a rest ih =>
    intro processed fields hsplit hgood
    obtain ⟨f', hstep, hgood'⟩ :=
      edgood_step e all processed a rest fields hsplit hnodup hpar hgood
    have hsplit' : (processed ++ [a]) ++ rest = all := by
      rw [List.append_assoc]
      simpa using hsplit
    obtain ⟨out, hout, hgoodout⟩ := ih (processed ++ [a]) f' hsplit' hgood'
    exact ⟨out, by rw [entityDataFields, hstep]; exact hout, hgoodout⟩

theorem any_name_eq_false {rest : List Attribute} {n : String}
    (P : Attribute → Bool) (h : ∀ b ∈ rest, b.name ≠ n) :
    rest.any (fun b => b.name == n && P b) = false := by
  rw [List.any_eq_false]
  intro b hb
  simp [h b hb]

/-- Replaying a record that stores, for every leaf, the entity's own
value (as `entity_data` produces): non-blob leaves are written back
with their original values and blob leaves are emptied (their record
value is a stored descriptor, never an upload stream). -/
theorem applyLeafs_roundtrip (env : Env) (up : String)
    (all : List Attribute) (e : Entity) (d : Record)
    (hlkt : ∀ a ∈ all, a.parent_attribute = Option.none →
      lookupA d.fields a.name = some (Entry.leaf (getValue e a.name)))
    (hlkn : ∀ a ∈ all, ∀ p, a.parent_attribute = some p →
      ∃ m, lookupA d.fields p = some (Entry.sub m) ∧
        lookupA m a.name = some (getValue e a.name)) :
    ∀ leafs e1 k,
      (∀ a ∈ leafs, a ∈ all) →
      ((leafs.map (fun x => x.name)).Nodup) →
      (∀ a ∈ leafs, a.type = AttrType.blob → a.parent_attribute = Option.none) →
      (∀ a ∈ leafs, (getValue e a.name).isFile = false) →
      ∃ e2, applyLeafs env up false leafs e1 (DataVar.record d) k = Except.ok e2 ∧
        ∀ n, getValue e2 n =
          if leafs.any (fun b => b.name == n && (b.type == AttrType.blob))
          then Value.none
          else if leafs.any (fun b => b.name == n && !(b.type == AttrType.blob))
          then getValue e n
          else getValue e1 n := by
  intro leafs
  induction leafs with
  | nil =>
    intro e1 k _ _ _ _
    refine ⟨e1, by rw [applyLeafs], ?_⟩
    intro n
    simp
  | cons a rest ih =>
    intro e1 k hsub hnd hbt hnf
    have hamem : a ∈ all := hsub a (List.mem_cons_self a rest)
    have hnd' := hnd
    rw [List.map_cons] at hnd'
    rcases List.nodup_cons.mp hnd' with ⟨hangotin, hndr⟩
    have hrestne : ∀ b ∈ rest, b.name ≠ a.name := by
      intro b hb heq
      exact hangotin (List.mem_map.mpr ⟨b, hb, heq⟩)
    have hsubr : ∀ b ∈ rest, b ∈ all :=
      fun b hb => hsub b (List.mem_cons_of_mem a hb)
    have hbtr : ∀ b ∈ rest, b.type = AttrType.blob →
        b.parent_attribute = Option.none :=
      fun b hb => hbt b (List.mem_cons_of_mem a hb)
    have hnfr : ∀ b ∈ rest, (getValue e b.name).isFile = false :=
      fun b hb => hnf b (List.mem_cons_of_mem a hb)
    -- helper: finishing the characterization once the head has written
    -- `w` into the leaf's own key
    have hfinish : ∀ (w : Value) (e2 : Entity),
        (∀ n, getValue e2 n =
          (if rest.any (fun b => b.name == n && (b.type == AttrType.blob))
            then Value.none
            else if rest.any (fun b => b.name == n && !(b.type == AttrType.blob))
            then getValue e n
            else getValue (entitySet e1 a.name w) n)) →
        ((a.type = AttrType.blob → w = Value.none) →
         (a.type ≠ AttrType.blob → w = getValue e a.name) →
        ∀ n, getValue e2 n =
          if (a :: rest).any (fun b => b.name == n && (b.type == AttrType.blob))
          then Value.none
          else if (a :: rest).any (fun b => b.name == n && !(b.type == AttrType.blob))
          then getValue e n
          else getValue e1 n) := by
      intro w e2 hch hwb hwn n
      rw [hch n]
      by_cases hn : a.name = n
      · subst hn
        have hbr : rest.any (fun b => b.name == a.name &&
            (b.type == AttrType.blob)) = false := any_name_eq_false _ hrestne
        have hnr : rest.any (fun b => b.name == a.name &&
            !(b.type == AttrType.blob)) = false := any_name_eq_false _ hrestne
        rw [hbr, hnr]
        simp only [Bool.false_eq_true, if_false]
        by_cases hb : a.type = AttrType.blob
        · have : (a :: rest).any (fun b => b.name == a.name &&
              (b.type == AttrType.blob)) = true := by
            simp [List.any_cons, hb]
          rw [this, if_pos rfl, hwb hb]
          simp [getValue, entitySet, lookupA_setA_self]
        · have h1 : (a :: rest).any (fun b => b.name == a.name &&
              (b.type == AttrType.blob)) = false := by
            simp only [List.any_cons, hbr, Bool.or_false, beq_self_eq_true,
              Bool.true_and]
            simpa using hb
          have h2 : (a :: rest).any (fun b => b.name == a.name &&
              !(b.type == AttrType.blob)) = true := by
            simp [List.any_cons, hb]
          rw [h1]
          simp only [Bool.false_eq_true, if_false]
          rw [h2, if_pos rfl, hwn hb]
          simp [getValue, entitySet, lookupA_setA_self]
      · have hset : getValue (entitySet e1 a.name w) n = getValue e1 n := by
          simp [getValue, entitySet, lookupA_setA_ne _ _ _ _ (fun hc => hn hc.symm)]
        have hhead1 : (a.name == n) = false := beq_eq_false_iff_ne.mpr hn
        simp only [List.any_cons, hhead1, Bool.false_and, Bool.false_or, hset]
    rcases hp : a.parent_attribute with _ | p
    · have hlk := hlkt a hamem hp
      have hpo : parentOf (DataVar.record d) a = Except.ok (ParentView.whole d) := by
        simp only [parentOf, hp]
      have hpm : parentMem (ParentView.whole d) a.name = true := by
        show recMem d a.name = true
        rw [recMem, hlk]
        simp
      by_cases hb : a.type = AttrType.blob
      · -- blob: the stored value is not an upload stream, so it is
        -- replaced by None
        have hdx : dataIndex (DataVar.record d) a.name =
            Except.ok (Entry.leaf (getValue e a.name)) := by
          rw [dataIndex, hlk]
        obtain ⟨e2, happ, hch⟩ := ih (entitySet e1 a.name Value.none) k
          hsubr hndr hbtr hnfr
        refine ⟨e2, ?_, hfinish Value.none e2 hch (fun _ => rfl)
          (fun hc => absurd hb hc)⟩
        rw [applyLeafs]
        simp only [Bool.false_eq_true, if_false, hpo]
        try dsimp only
        simp only [hpm, Bool.not_true, Bool.false_eq_true, if_false]
        rw [if_pos hb, hdx]
        have hnfa := hnf a (List.mem_cons_self a rest)
        cases hv0 : getValue e a.name with
        | file fn ch =>
          rw [hv0] at hnfa
          simp [Value.isFile] at hnfa
        | none => exact happ
        | str sv => exact happ
        | int iv => exact happ
        | strList lv => exact happ
        | blob bv => exact happ
      · have hpg : parentGet (ParentView.whole d) a.name =
            Except.ok (getValue e a.name) := by
          rw [parentGet, hlk]
        obtain ⟨e2, happ, hch⟩ := ih (entitySet e1 a.name (getValue e a.name)) k
          hsubr hndr hbtr hnfr
        refine ⟨e2, ?_, hfinish (getValue e a.name) e2 hch
          (fun hc => absurd hc hb) (fun _ => rfl)⟩
        rw [applyLeafs]
        simp only [Bool.false_eq_true, if_false, hpo]
        try dsimp only
        simp only [hpm, Bool.not_true, Bool.false_eq_true, if_false]
        rw [if_neg hb, hpg]
        exact happ
    · obtain ⟨m, hm, hmn⟩ := hlkn a hamem p hp
      have hpo : parentOf (DataVar.record d) a = Except.ok (ParentView.dict m) := by
        simp only [parentOf, hp, hm]
      have hpm : parentMem (ParentView.dict m) a.name = true := by
        show (lookupA m a.name).isSome = true
        rw [hmn]
        rfl
      have hnb : a.type ≠ AttrType.blob := by
        intro hc
        rw [hbt a (List.mem_cons_self a rest) hc] at hp
        cases hp
      have hpg : parentGet (ParentView.dict m) a.name =
          Except.ok (getValue e a.name) := by
        rw [parentGet, hmn]
      obtain ⟨e2, happ, hch⟩ := ih (entitySet e1 a.name (getValue e a.name)) k
        hsubr hndr hbtr hnfr
      refine ⟨e2, ?_, hfinish (getValue e a.name) e2 hch
        (fun hc => absurd hc hnb) (fun _ => rfl)⟩
      rw [applyLeafs]
      simp only [Bool.false_eq_true, if_false, hpo]
      try dsimp only
      simp only [hpm, Bool.not_true, Bool.false_eq_true, if_false]
      rw [if_neg hnb, hpg]
      exact happ

/-- C1 (amended): for an entity not in complete state and not flagged
not-done whose schema is well-formed (distinct leaf names, section
names distinct from leaf names, blob attributes at top level) and whose
stored values contain no raw upload streams, applying the serialized
record back onto the entity succeeds and reproduces every non-blob leaf
value; every blob leaf is reset to empty, because the serialized
attachment descriptor is not an upload stream and the blob branch
stores `None` for any non-upload submission. -/
theorem apply_data_entity_data_roundtrip (sess : Session) (env : Env)
    (e : Entity) (up : String)
    (hprev : e.state ≠ some COMPLETE)
    (hnd : e.not_done = false)
    (hnodup : (e.schema.leafs.map (fun x => x.name)).Nodup)
    (hpar : ∀ x ∈ e.schema.leafs, ∀ y ∈ e.schema.leafs, ∀ p,
      x.parent_attribute = some p → p ≠ y.name)
    (hblobtop : ∀ a ∈ e.schema.leafs, a.type = AttrType.blob →
      a.parent_attribute = Option.none)
    (hnofile : ∀ a ∈ e.schema.leafs, (getValue e a.name).isFile = false)
    (hstate : e.state = some PENDING_REVIEW ∨
      ∃ st, stateLookupOne sess PENDING_REVIEW = Except.ok st)
    (hschema : schemaLookupOne sess e.schema.name e.schema.publish_date =
      Except.ok e.schema) :
    ∃ d e', entity_data e = Except.ok d ∧
      apply_data sess env e d up = Except.ok e' ∧
      (∀ a ∈ e.schema.leafs, a.type ≠ AttrType.blob →
        getValue e' a.name = getValue e a.name) ∧
      (∀ a ∈ e.schema.leafs, a.type = AttrType.blob →
        getValue e' a.name = Value.none) := by
  obtain ⟨out, hout, hgood⟩ := entityDataFields_good e e.schema.leafs hnodup
    hpar e.schema.leafs [] [] rfl (edgood_nil e)
  have hed : entity_data e = Except.ok
      { ofworkflow_ := Option.none,
        ofmetadata_ := some
          { state := e.state, not_done := e.not_done,
            collect_date := e.collect_date,
            version := e.schema.publish_date },
        fields := out } := by
    rw [entity_data, hout]
  have hlkt := hgood.1
  have hlkn := hgood.2.1
  have cC : ((PENDING_REVIEW == PENDING_ENTRY) : Bool) = false := rfl
  have happly : ∃ eX, apply_data sess env e
      { ofworkflow_ := Option.none,
        ofmetadata_ := some
          { state := e.state, not_done := e.not_done,
            collect_date := e.collect_date,
            version := e.schema.publish_date },
        fields := out } up =
      applyLeafs env up false e.schema.leafs eX
        (DataVar.record
          { ofworkflow_ := Option.none,
            ofmetadata_ := some
              { state := e.state, not_done := e.not_done,
                collect_date := e.collect_date,
                version := e.schema.publish_date },
            fields := out }) 0 := by
    by_cases hst1 : e.state = some PENDING_REVIEW
    · apply Exists.intro
      rw [apply_data]
      have hb1 : (e.state == some (nextStateOf
          { ofworkflow_ := Option.none,
            ofmetadata_ := some
              { state := e.state, not_done := e.not_done,
                collect_date := e.collect_date,
                version := e.schema.publish_date },
            fields := out })) = true := by
        rw [hst1]
        rfl
      rw [if_pos hb1]
      rw [show (nextStateOf
          { ofworkflow_ := Option.none,
            ofmetadata_ := some
              { state := e.state, not_done := e.not_done,
                collect_date := e.collect_date,
                version := e.schema.publish_date },
            fields := out }) = PENDING_REVIEW from rfl]
      have hb2 : (e.state == some COMPLETE) = false := by simpa using hprev
      simp only [hb2, Bool.false_eq_true, if_false]
      try dsimp only
      rw [hschema]
      try dsimp only
      simp only [cC, Bool.false_eq_true, if_false, Bool.or_false]
      rw [hnd]
    · rcases hstate with hst | ⟨st, hstl⟩
      · exact absurd hst hst1
      · apply Exists.intro
        rw [apply_data]
        have hb1 : (e.state == some (nextStateOf
            { ofworkflow_ := Option.none,
              ofmetadata_ := some
                { state := e.state, not_done := e.not_done,
                  collect_date := e.collect_date,
                  version := e.schema.publish_date },
              fields := out })) = false := by
          simpa using hst1
        rw [if_neg (by simp [hb1])]
        rw [show (nextStateOf
            { ofworkflow_ := Option.none,
              ofmetadata_ := some
                { state := e.state, not_done := e.not_done,
                  collect_date := e.collect_date,
                  version := e.schema.publish_date },
              fields := out }) = PENDING_REVIEW from rfl, hstl]
        have hb2 : (e.state == some COMPLETE) = false := by simpa using hprev
        simp only [hb2, Bool.false_eq_true, if_false]
        try dsimp only
        rw [hschema]
        try dsimp only
        simp only [cC, Bool.false_eq_true, if_false, Bool.or_false]
        rw [hnd]
  obtain ⟨eX, happlyX⟩ := happly
  obtain ⟨e2, happ2, hch⟩ := applyLeafs_roundtrip env up e.schema.leafs e
    { ofworkflow_ := Option.none,
      ofmetadata_ := some
        { state := e.state, not_done := e.not_done,
          collect_date := e.collect_date,
          version := e.schema.publish_date },
      fields := out } hlkt hlkn e.schema.leafs eX 0
    (fun a ha => ha) hnodup hblobtop hnofile
  have hinj := List.inj_on_of_nodup_map hnodup
  refine ⟨_, e2, hed, by rw [happlyX]; exact happ2, ?_, ?_⟩
  · intro a ha hnb
    rw [hch a.name]
    have h1 : e.schema.leafs.any
        (fun b => b.name == a.name && (b.type == AttrType.blob)) = false := by
      rw [List.any_eq_false]
      intro b hb
      simp only [Bool.and_eq_true, beq_iff_eq, not_and]
      intro hname htype
      exact hnb (by rw [← hinj hb ha hname]; exact htype)
    have h2 : e.schema.leafs.any
        (fun b => b.name == a.name && !(b.type == AttrType.blob)) = true := by
      rw [List.any_eq_true]
      refine ⟨a, ha, ?_⟩
      simp [hnb]
    rw [h1]
    simp only [Bool.false_eq_true, if_false]
    rw [h2, if_pos rfl]
  · intro a ha hb
    rw [hch a.name]
    have h1 : e.schema.leafs.any
        (fun b => b.name == a.name && (b.type == AttrType.blob)) = true := by
      rw [List.any_eq_true]
      exact ⟨a, ha, by simp [hb]⟩
    rw [h1, if_pos rfl]

/-- Counterexample to the literal reading of C1: feeding `entity_data`'s
output back through `apply_data` does not restore the entity.  A stored
blob value is wiped to `Value.none` (the form carries only an upload slot,
and without a new upload the blob branch stores nothing), and a blob
attribute nested under a section makes `apply_data` fail with a
`KeyError`, because the blob branch indexes the top-level record `data`
rather than the section sub-dictionary. -/
theorem apply_data_entity_data_roundtrip_counterexample :
    (entity_data entityBlob = Except.ok recBlob ∧
     apply_data sessRT env0 entityBlob recBlob "up" = Except.ok resultBlob ∧
     getValue entityBlob "f" = Value.blob ⟨"orig", "p0", "m0"⟩ ∧
     getValue resultBlob "f" = Value.none ∧
     Value.blob ⟨"orig", "p0", "m0"⟩ ≠ Value.none) ∧
    (entity_data entityBlobNested = Except.ok recBlobNested ∧
     apply_data sessRT2 env0 entityBlobNested recBlobNested "up" =
       Except.error PyError.keyError) := by
  refine ⟨⟨rfl, rfl, rfl, rfl, ?_⟩, rfl, rfl⟩
  intro h
  exact Value.noConfusion h

/-- Witness for C1's amended round-trip theorem at a concrete entity with
one string leaf and one top-level blob leaf. -/
theorem apply_data_entity_data_roundtrip_witness :
    ∃ d e', entity_data entityRT = Except.ok d ∧
      apply_data sessRT3 env0 entityRT d "up" = Except.ok e' ∧
      (∀ a ∈ entityRT.schema.leafs, a.type ≠ AttrType.blob →
        getValue e' a.name = getValue entityRT a.name) ∧
      (∀ a ∈ entityRT.schema.leafs, a.type = AttrType.blob →
        getValue e' a.name = Value.none) := by
  refine apply_data_entity_data_roundtrip sessRT3 env0 entityRT "up"
    ?_ rfl ?_ ?_ ?_ ?_ (Or.inr ⟨_, rfl⟩) rfl
  · intro h
    exact absurd h (by decide)
  · decide
  · intro x hx y hy p hp
    have hx' : x = leafSx ∨ x = leafFx := by
      simpa [entityRT, schemaRT] using hx
    rcases hx' with h | h <;> rw [h] at hp <;> exact Option.noConfusion hp
  · intro a ha hb
    have ha' : a = leafSx ∨ a = leafFx := by
      simpa [entityRT, schemaRT] using ha
    rcases ha' with h | h <;> rw [h]
    · exact absurd (h ▸ hb) (by decide)
    · rfl
  · intro a ha
    have ha' : a = leafSx ∨ a = leafFx := by
      simpa [entityRT, schemaRT] using ha
    rcases ha' with h | h <;> rw [h] <;> rfl
